import Mathlib

/-!
Schmidt-Samoa cryptosystem: number theory layer and key / file protocol.

A shallow embedding of `numtheory.c` and `ss.c`.

* `mpz_t` values are `Int` (GMP integers are signed and unbounded).
* `uint64_t` values are `Nat` with explicit reduction modulo `2 ^ 64`.
* Every C loop is a function that is structurally recursive on a `fuel`
  argument bounding the number of loop tests; running out of fuel is the
  distinguished outcome `out_of_fuel`, so termination is always a theorem
  (`∃ N, ∀ fuel ≥ N, ... = ok ...`) and never an assumption.
* The GMP random state is the infinite sequence `g : Nat → Nat` of raw
  generator outputs together with the number `pos` of outputs consumed so far.
-/

namespace SS

/-! ## Outcomes of a bounded run -/

/-- Outcome of running a piece of the program for a bounded number of loop tests. -/
inductive Outcome (α : Type) where
  /-- The code returned normally with this value. -/
  | ok (v : α)
  /-- The code divided (or took a remainder) by zero. -/
  | div_by_zero
  /-- The code aborted or left defined behaviour for another reason
  (out-of-bounds access to the block buffer, square root of a negative number). -/
  | fault
  /-- The loop budget was used up before the code returned. -/
  | out_of_fuel
deriving DecidableEq, Repr

/-- Sequencing: run `f` on the value of a normal outcome, propagate anything else. -/
def Outcome.bind {α β : Type} (x : Outcome α) (f : α → Outcome β) : Outcome β :=
  match x with
  | .ok v => f v
  | .div_by_zero => .div_by_zero
  | .fault => .fault
  | .out_of_fuel => .out_of_fuel

/-! ## GMP primitives -/

/-- `mpz_mod(r, n, d)`: least non-negative remainder, the sign of `d` is ignored;
division by zero is an error. -/
def mpz_mod (n d : Int) : Outcome Int :=
  if d = 0 then .div_by_zero else .ok (n % d)

/-- `mpz_fdiv_q(q, n, d)`: quotient rounded towards minus infinity. -/
def mpz_fdiv_q (n d : Int) : Outcome Int :=
  if d = 0 then .div_by_zero else .ok (Int.fdiv n d)

/-- Number of binary digits of `x` (`0` for `x = 0`), by repeated halving. -/
def bit_length : Nat → Nat → Nat
  | 0, _ => 0
  | fuel + 1, x => if x = 0 then 0 else bit_length fuel (x / 2) + 1

/-- `mpz_sizeinbase(x, 2)`: number of bits of `|x|`, and `1` for `x = 0`. -/
def mpz_sizeinbase2 (x : Int) : Nat :=
  if x = 0 then 1 else bit_length x.natAbs x.natAbs

/-- Newton iteration for the integer square root, from a guess above the root. -/
def sqrt_iter : Nat → Nat → Nat → Nat
  | 0, _, guess => guess
  | fuel + 1, n, guess =>
    if (guess + n / guess) / 2 < guess then sqrt_iter fuel n ((guess + n / guess) / 2)
    else guess

/-- Integer square root of a natural number (the truncated root). -/
def isqrt (n : Nat) : Nat :=
  if n ≤ 1 then n else sqrt_iter n n (n / 2)

/-- `mpz_sqrt(rop, op)`: the truncated integer square root; a negative operand is an error. -/
def mpz_sqrt (n : Int) : Outcome Int :=
  if n < 0 then .fault else .ok ((isqrt n.toNat : Nat) : Int)

/-- `mpz_divisible_p(n, d)`: `n` is a multiple of `d`; for `d = 0` only `n = 0` is. -/
def mpz_divisible_p (n d : Int) : Bool :=
  decide (n % d = 0)

/-! ## numtheory.c -/

/-- `gcd(g, a, b)`: the loop `while (b != 0) { t = b; b = a mod b; a = t; }`. -/
def gcd : Nat → Int → Int → Outcome Int
  | 0, _, _ => .out_of_fuel
  | fuel + 1, a, b =>
    if b = 0 then .ok a
    else (mpz_mod a b).bind fun r => gcd fuel b r

/-- The loop of `mod_inverse` on the state `(r, r1, t, t1)`; returns the final `(r, t)`. -/
def mod_inverse_loop : Nat → Int → Int → Int → Int → Outcome (Int × Int)
  | 0, _, _, _, _ => .out_of_fuel
  | fuel + 1, r, r1, t, t1 =>
    if r1 = 0 then .ok (r, t)
    else (mpz_fdiv_q r r1).bind fun q =>
      mod_inverse_loop fuel r1 (r - q * r1) t1 (t - q * t1)

/-- `mod_inverse(o, a, n)`: extended Euclid from `r = n, r1 = a, t = 0, t1 = 1`;
`0` when the final `r` exceeds `1`, otherwise `t`, with `n` added when `t < 0`. -/
def mod_inverse (fuel : Nat) (a n : Int) : Outcome Int :=
  (mod_inverse_loop fuel n a 0 1).bind fun rt =>
    if rt.1 > 1 then .ok 0
    else if rt.2 < 0 then .ok (rt.2 + n)
    else .ok rt.2

/-- The loop of `pow_mod` on the state `(v, p, copy_d)`. -/
def pow_mod_loop : Nat → Int → Int → Int → Int → Outcome Int
  | 0, _, _, _, _ => .out_of_fuel
  | fuel + 1, v, p, d, n =>
    if d > 0 then
      (if d % 2 = 1 then mpz_mod (v * p) n else .ok v).bind fun v1 =>
      (mpz_mod (p * p) n).bind fun p1 =>
      pow_mod_loop fuel v1 p1 (Int.fdiv d 2) n
    else .ok v

/-- `pow_mod(o, a, d, n)`: square and multiply from `v = 1`, `p = a`. -/
def pow_mod (fuel : Nat) (a d n : Int) : Outcome Int :=
  pow_mod_loop fuel 1 a d n

/-- The halving loop of `is_prime`: `while (copy is even) { copy = copy / 2; s += 1; }`;
returns the final `(copy_n_minus_1, s)`. -/
def is_prime_split : Nat → Int → Nat → Outcome (Int × Nat)
  | 0, _, _ => .out_of_fuel
  | fuel + 1, c, s =>
    if c % 2 = 0 then is_prime_split fuel (Int.fdiv c 2) (s + 1)
    else .ok (c, s)

/-- The `uint64_t` value `s - 1` for a counter `s` below `2 ^ 64`: `2 ^ 64 - 1` at `s = 0`. -/
def u64_pred (s : Nat) : Nat :=
  if s = 0 then 2 ^ 64 - 1 else s - 1

/-- `mpz_urandomm(rop, state, bound)`: the next generator output reduced into `[0, bound)`;
returns the value and the new position in the generator sequence. -/
def mpz_urandomm (g : Nat → Nat) (pos : Nat) (bound : Int) : Outcome (Int × Nat) :=
  if bound = 0 then .div_by_zero else .ok (((g pos : Nat) : Int) % bound, pos + 1)

/-- `mpz_urandomb(rop, state, nbits)`: the next generator output reduced into `[0, 2 ^ nbits)`. -/
def mpz_urandomb (g : Nat → Nat) (pos : Nat) (nbits : Nat) : Int × Nat :=
  (((g pos % 2 ^ nbits : Nat) : Int), pos + 1)

/-- The inner loop of a Miller-Rabin round:
`while (j <= s - 1 && y != n - 1) { y = pow_mod(y, 2, n); if (y == 1) return false; j += 1; }`.
The value is `none` when the function returned `false` from inside the loop and
`some y` with the final `y` when the loop ended. The counters `s` and `j` count bits of a
GMP integer, so they never reach `2 ^ 64`; the subtraction `s - 1` wraps around at `s = 0`. -/
def is_prime_inner : Nat → Int → Int → Nat → Nat → Outcome (Option Int)
  | 0, _, _, _, _ => .out_of_fuel
  | fuel + 1, y, n, j, s =>
    if j ≤ u64_pred s ∧ y ≠ n - 1 then
      (pow_mod fuel y 2 n).bind fun y1 =>
        if y1 = 1 then .ok none
        else is_prime_inner fuel y1 n (j + 1) s
    else .ok (some y)

/-- The `for (i = 0; i < iters; i++)` loop of `is_prime`, from round `i` on, with
`r = copy_n_minus_1` and `s` from the halving loop; returns the verdict and the new
generator position. -/
def is_prime_rounds : Nat → Nat → Nat → Int → Int → Nat → (Nat → Nat) → Nat →
    Outcome (Bool × Nat)
  | 0, _, _, _, _, _, _, _ => .out_of_fuel
  | fuel + 1, i, iters, n, r, s, g, pos =>
    if i < iters then
      (mpz_urandomm g pos (n - 3)).bind fun w =>
      (pow_mod fuel (w.1 + 2) r n).bind fun y =>
        if y ≠ 1 ∧ y ≠ n - 1 then
          (is_prime_inner fuel y n 1 s).bind fun res =>
            match res with
            | none => .ok (false, w.2)
            | some y1 =>
              if y1 ≠ n - 1 then .ok (false, w.2)
              else is_prime_rounds fuel (i + 1) iters n r s g w.2
        else is_prime_rounds fuel (i + 1) iters n r s g w.2
    else .ok (true, pos)

/-- `is_prime(n, iters)`: Miller-Rabin with `iters` rounds, drawing witnesses from the
generator sequence `g` starting at position `pos`. -/
def is_prime (fuel : Nat) (n : Int) (iters : Nat) (g : Nat → Nat) (pos : Nat) :
    Outcome (Bool × Nat) :=
  if n = 2 then .ok (true, pos)
  else if n = 3 then .ok (true, pos)
  else if n % 2 = 0 ∨ n < 2 then .ok (false, pos)
  else (is_prime_split fuel (n - 1) 0).bind fun rs =>
    is_prime_rounds fuel 0 iters n rs.1 rs.2 g pos

/-- `make_prime(p, bits, iters)`: draw `bits + 1` random bits (the sum is a `uint64_t`)
until the candidate has `bits + 1` significant bits and passes `is_prime`. -/
def make_prime : Nat → Nat → Nat → (Nat → Nat) → Nat → Outcome (Int × Nat)
  | 0, _, _, _, _ => .out_of_fuel
  | fuel + 1, bits, iters, g, pos =>
    let cand := mpz_urandomb g pos ((bits + 1) % 2 ^ 64)
    if mpz_sizeinbase2 cand.1 < (bits + 1) % 2 ^ 64 then
      make_prime fuel bits iters g cand.2
    else
      (is_prime fuel cand.1 iters g cand.2).bind fun res =>
        if res.1 then .ok (cand.1, res.2)
        else make_prime fuel bits iters g res.2

/-! ## ss.c: key construction -/

/-- `random_number_btw(lower, upper)` with `rnd` the value returned by `random()`:
`lower + rnd % (upper - lower)` in `uint64_t` arithmetic. -/
def random_number_btw (lower upper rnd : Nat) : Outcome Nat :=
  let range := (upper + 2 ^ 64 - lower) % 2 ^ 64
  if range = 0 then .div_by_zero
  else .ok ((lower + rnd % range) % 2 ^ 64)

/-- The `while (p_flag || q_flag)` loop of `ss_make_pub`. `p0` and `q0` are the values
held by the output parameters `p` and `q` on entry: the two divisibility tests read
those, and the outputs are only written after the loop. Returns
`(p_value, q_value, position)`. -/
def ss_make_pub_loop : Nat → Int → Int → Nat → Nat → Nat → (Nat → Nat) → Nat →
    Outcome (Int × Int × Nat)
  | 0, _, _, _, _, _, _, _ => .out_of_fuel
  | fuel + 1, p0, q0, p_bits, q_bits, iters, g, pos =>
    (make_prime fuel p_bits iters g pos).bind fun pv =>
    (make_prime fuel q_bits iters g pv.2).bind fun qv =>
      if mpz_divisible_p (pv.1 - 1) q0 then
        ss_make_pub_loop fuel p0 q0 p_bits q_bits iters g qv.2
      else if mpz_divisible_p (qv.1 - 1) p0 then
        ss_make_pub_loop fuel p0 q0 p_bits q_bits iters g qv.2
      else .ok (pv.1, qv.1, qv.2)

/-- `ss_make_pub(p, q, n, nbits, iters)`: returns `(p, q, n, position)`. `p0`, `q0` are
the values of the output parameters on entry, `rnd` is the value returned by `random()`. -/
def ss_make_pub (fuel : Nat) (p0 q0 : Int) (nbits iters rnd : Nat) (g : Nat → Nat)
    (pos : Nat) : Outcome (Int × Int × Int × Nat) :=
  (random_number_btw (nbits / 5) ((2 * nbits) % 2 ^ 64 / 5) rnd).bind fun p_bits =>
    let q_bits := (nbits + 2 ^ 64 - (p_bits * 2) % 2 ^ 64) % 2 ^ 64
    (ss_make_pub_loop fuel p0 q0 p_bits q_bits iters g pos).bind fun r =>
      .ok (r.1, r.2.1, r.1 * r.1 * r.2.1, r.2.2)

/-- The modulus `n` that `ss_make_priv` recomputes: `pq = p * q`, then `n = p * pq`. -/
def ss_make_priv_n (p q : Int) : Int :=
  p * (p * q)

/-- The modulus `lamda_n` of `ss_make_priv`: `(p - 1)(q - 1)` divided by `gcd(p - 1, q - 1)`. -/
def ss_make_priv_lambda (fuel : Nat) (p q : Int) : Outcome Int :=
  (gcd fuel (p - 1) (q - 1)).bind fun g => mpz_fdiv_q ((p - 1) * (q - 1)) g

/-- `ss_make_priv(d, pq, p, q)`: returns `(d, pq)`. -/
def ss_make_priv (fuel : Nat) (p q : Int) : Outcome (Int × Int) :=
  (ss_make_priv_lambda fuel p q).bind fun lamda_n =>
  (mod_inverse fuel (ss_make_priv_n p q) lamda_n).bind fun d =>
    .ok (d, p * q)

/-! ## ss.c: encryption and decryption -/

/-- `ss_encrypt(c, m, n)`: `pow_mod(c, m, n, n)`. -/
def ss_encrypt (fuel : Nat) (m n : Int) : Outcome Int :=
  pow_mod fuel m n n

/-- `ss_decrypt(m, c, d, pq)`: `pow_mod(m, c, d, pq)`. -/
def ss_decrypt (fuel : Nat) (c d pq : Int) : Outcome Int :=
  pow_mod fuel c d pq

/-- `mpz_import(m, count, 1, 1, 1, 0, block)`: the bytes read as a big-endian number. -/
def mpz_import (bytes : List Nat) : Int :=
  ((bytes.foldl (fun acc b => acc * 256 + b) 0 : Nat) : Int)

/-- Big-endian bytes of a natural number, most significant first, none for `0`. -/
def export_bytes : Nat → Nat → List Nat → List Nat
  | 0, _, acc => acc
  | fuel + 1, m, acc => if m = 0 then acc else export_bytes fuel (m / 256) (m % 256 :: acc)

/-- `mpz_export(block, &j, 1, 1, 1, 0, m)`: the big-endian bytes of `|m|` without leading
zero bytes (no byte at all for `m = 0`); `j` is the length of the list. -/
def mpz_export (m : Int) : List Nat :=
  export_bytes m.natAbs m.natAbs []

/-- An input stream: the bytes not yet read and the end-of-file indicator. -/
structure InStream where
  /-- Bytes not yet consumed. -/
  data : List Nat
  /-- The indicator tested by `feof`. -/
  eof : Bool
deriving DecidableEq, Repr

/-- `fread(ptr, 1, cnt, f)`: delivers up to `cnt` bytes; the end-of-file indicator is set
when fewer than `cnt` bytes were available; a request for `0` bytes leaves the stream
untouched. -/
def fread (cnt : Nat) (f : InStream) : List Nat × InStream :=
  if cnt = 0 then ([], f)
  else (f.data.take cnt, { data := f.data.drop cnt, eof := f.eof || decide (f.data.length < cnt) })

/-- The block capacity `k = (mpz_sizeinbase(x, 2) - 1) / 8`. -/
def block_size (x : Int) : Nat :=
  (mpz_sizeinbase2 x - 1) / 8

/-- The `while (!feof(infile))` loop of `ss_encrypt_file` for a block of capacity `k >= 1`;
a wire record (hexadecimal digits and a newline) is represented by the integer it
encodes, and `out` holds the records written so far. -/
def ss_encrypt_file_loop : Nat → Nat → Int → InStream → List Int → Outcome (List Int)
  | 0, _, _, _, _ => .out_of_fuel
  | fuel + 1, k, n, f, out =>
    if f.eof then .ok out
    else
      let rd := fread (k - 1) f
      (ss_encrypt fuel (mpz_import (0xFF :: rd.1)) n).bind fun c =>
        ss_encrypt_file_loop fuel k n rd.2 (out ++ [c])

/-- `ss_encrypt_file(infile, outfile, n)` on a freshly opened input holding `input`;
returns the records written. Storing `0xFF` into a block of capacity `0` and the square
root of a negative `n` are faults. -/
def ss_encrypt_file (fuel : Nat) (input : List Nat) (n : Int) : Outcome (List Int) :=
  (mpz_sqrt n).bind fun sqrt_n =>
    if block_size sqrt_n = 0 then .fault
    else ss_encrypt_file_loop fuel (block_size sqrt_n) n { data := input, eof := false } []

/-- The `while (!feof(infile))` loop of `ss_decrypt_file`. `recs` are the records not yet
read, `eof` the end-of-file indicator, `c` the current value of the variable `c`
(a failed scan leaves it unchanged) and `out` the bytes written so far.
`gmp_fscanf(infile, "%ZX\n", c)` reads one record and the white space after it, which
sets the indicator when nothing follows. Exporting more than `k` bytes, or writing
`j - 1` (modulo `2 ^ 64`) bytes when fewer follow `block[0]`, is a fault. -/
def ss_decrypt_file_loop : Nat → Nat → Int → Int → List Int → Bool → Int → List Nat →
    Outcome (List Nat)
  | 0, _, _, _, _, _, _, _ => .out_of_fuel
  | fuel + 1, k, d, pq, recs, eof, c, out =>
    if eof then .ok out
    else
      let c1 := recs.headD c
      (ss_decrypt fuel c1 d pq).bind fun m =>
        let bytes := mpz_export m
        let j := bytes.length
        if k < j then .fault
        else if k - 1 < (j + 2 ^ 64 - 1) % 2 ^ 64 then .fault
        else ss_decrypt_file_loop fuel k d pq recs.tail (decide (recs.tail = [])) c1
          (out ++ bytes.tail)

/-- `ss_decrypt_file(infile, outfile, d, pq)` on a freshly opened input holding the
records `recs`; returns the bytes written. -/
def ss_decrypt_file (fuel : Nat) (recs : List Int) (d pq : Int) : Outcome (List Nat) :=
  ss_decrypt_file_loop fuel (block_size pq) d pq recs false 0 []

/-! ## ss.c: key files

The text of a key file is the list of its bytes (character codes). -/

/-- The character code that `%ZX` writes for the hexadecimal digit `d`: `0`-`9`, `A`-`F`. -/
def hex_char (d : Nat) : Nat :=
  if d < 10 then 48 + d else 55 + d

/-- Value of a hexadecimal digit character; on input both letter cases are digits. -/
def hex_val (c : Nat) : Option Nat :=
  if 48 ≤ c ∧ c ≤ 57 then some (c - 48)
  else if 65 ≤ c ∧ c ≤ 70 then some (c - 55)
  else if 97 ≤ c ∧ c ≤ 102 then some (c - 87)
  else none

/-- Whether a character code is a hexadecimal digit. -/
def is_hex (c : Nat) : Bool :=
  (hex_val c).isSome

/-- The C `isspace` on character codes: space, and tab to carriage return. -/
def isspace (c : Nat) : Bool :=
  decide (c = 32 ∨ (9 ≤ c ∧ c ≤ 13))

/-- Hexadecimal digits of a natural number, most significant first, none for `0`. -/
def hex_digits : Nat → Nat → List Nat → List Nat
  | 0, _, acc => acc
  | fuel + 1, m, acc =>
    if m = 0 then acc else hex_digits fuel (m / 16) (hex_char (m % 16) :: acc)

/-- The text written for `%ZX`: a minus sign for a negative number, then the uppercase
hexadecimal digits without prefix (`0` for zero). -/
def fmt_ZX (n : Int) : List Nat :=
  (if n < 0 then [45] else []) ++
    (if n = 0 then [48] else hex_digits n.natAbs n.natAbs [])

/-- `ss_write_pub(n, username, pbfile)`: the text of `gmp_fprintf(pbfile, "%ZX\n%s\n", ...)`. -/
def ss_write_pub (n : Int) (username : List Nat) : List Nat :=
  fmt_ZX n ++ [10] ++ username ++ [10]

/-- `ss_write_priv(pq, d, pvfile)`: the text of `gmp_fprintf(pvfile, "%ZX\n%ZX\n", ...)`. -/
def ss_write_priv (pq d : Int) : List Nat :=
  fmt_ZX pq ++ [10] ++ fmt_ZX d ++ [10]

/-- The number denoted by a run of hexadecimal digit characters. -/
def hex_value (digits : List Nat) : Nat :=
  digits.foldl (fun acc c => acc * 16 + (hex_val c).getD 0) 0

/-- The conversion `%ZX` of `gmp_fscanf`: white space is skipped, an optional minus sign
and the longest run of hexadecimal digits are read; with no digit the conversion fails
(`none`). Returns the number and the unread text. -/
def scan_ZX (s : List Nat) : Option (Int × List Nat) :=
  let s1 := s.dropWhile isspace
  let neg := decide (s1.head? = some 45)
  let s2 := if neg then s1.tail else s1
  let digits := s2.takeWhile is_hex
  if digits = [] then none
  else some ((if neg then -1 else 1) * ((hex_value digits : Nat) : Int), s2.dropWhile is_hex)

/-- A character code that is not white space. -/
def not_space (c : Nat) : Bool :=
  !isspace c

/-- The conversion `%s` of `fscanf`: white space is skipped and the longest run of
characters that are not white space is read; with no character the conversion fails.
Returns the string and the unread text. -/
def scan_s (s : List Nat) : Option (List Nat × List Nat) :=
  let s1 := s.dropWhile isspace
  let tok := s1.takeWhile not_space
  if tok = [] then none
  else some (tok, s1.dropWhile not_space)

/-- `ss_read_pub(n, username, pbfile)`: `gmp_fscanf(pbfile, "%ZX\n%s\n", n, username)` on
the text of the file; a newline in the format skips any white space. `n0` and `username0`
are the values of the output parameters on entry, kept by a conversion that fails. -/
def ss_read_pub (text : List Nat) (n0 : Int) (username0 : List Nat) : Int × List Nat :=
  match scan_ZX text with
  | none => (n0, username0)
  | some (n, rest) =>
    match scan_s (rest.dropWhile isspace) with
    | none => (n, username0)
    | some (username, _) => (n, username)

/-- `ss_read_priv(pq, d, pvfile)`: `gmp_fscanf(pvfile, "%ZX\n%ZX\n", pq, d)` on the text
of the file. -/
def ss_read_priv (text : List Nat) (pq0 d0 : Int) : Int × Int :=
  match scan_ZX text with
  | none => (pq0, d0)
  | some (pq, rest) =>
    match scan_ZX (rest.dropWhile isspace) with
    | none => (pq, d0)
    | some (d, _) => (pq, d)

/-! ## Reference notions used by the claims -/

/-- The trial-division oracle of the specification: `n >= 2` and no `d` with `1 < d < n`
divides `n`. -/
def trial_division_prime (n : Nat) : Prop :=
  2 ≤ n ∧ ∀ d, d < n → 1 < d → ¬ d ∣ n

instance trial_division_prime_decidable (n : Nat) : Decidable (trial_division_prime n) := by
  unfold trial_division_prime
  infer_instance

/-- A strong liar for `n`, where `n - 1 = 2 ^ s * r` with `r` odd: a base `a` with
`a ^ r mod n = 1`, or `a ^ (2 ^ t * r) mod n = n - 1` for some `t < s`. -/
def strong_liar (n : Int) (r s : Nat) (a : Int) : Prop :=
  a ^ r % n = 1 ∨ ∃ t, t < s ∧ a ^ (2 ^ t * r) % n = n - 1

instance strong_liar_decidable (n : Int) (r s : Nat) (a : Int) :
    Decidable (strong_liar n r s a) := by
  unfold strong_liar
  infer_instance

/-! ## Basic facts -/

@[simp] theorem Outcome.bind_ok {α β : Type} (v : α) (f : α → Outcome β) :
    (Outcome.ok v).bind f = f v := rfl

theorem mpz_mod_ok (a n : Int) (hn : n ≠ 0) : mpz_mod a n = .ok (a % n) := by
  simp [mpz_mod, hn]

theorem mpz_fdiv_q_ok (a n : Int) (hn : 0 < n) : mpz_fdiv_q a n = .ok (a / n) := by
  have h0 : n ≠ 0 := ne_of_gt hn
  simp [mpz_fdiv_q, h0, Int.fdiv_eq_ediv a (le_of_lt hn)]

theorem fdiv_two_cast (d : Nat) : Int.fdiv (d : Int) 2 = ((d / 2 : Nat) : Int) := by
  rw [Int.fdiv_eq_ediv _ (by norm_num)]
  norm_cast

/-! ## The arithmetic helpers agree with their library counterparts -/

theorem sqrt_iter_eq (n : Nat) : ∀ fuel guess, guess ≤ fuel →
    sqrt_iter fuel n guess = Nat.sqrt.iter n guess := by
  intro fuel
  induction fuel with
  | zero =>
    intro guess h
    have h0 : guess = 0 := by omega
    subst h0
    rw [Nat.sqrt.iter]
    simp [sqrt_iter]
  | succ k ih =>
    intro guess h
    rw [Nat.sqrt.iter]
    simp only [sqrt_iter]
    split_ifs with h1
    · exact ih _ (by omega)
    · rfl

/-- The square root of the model, `isqrt`, is the truncated square root `Nat.sqrt`. -/
theorem isqrt_eq_sqrt (n : Nat) : isqrt n = Nat.sqrt n := by
  unfold isqrt Nat.sqrt
  split_ifs with h
  · rfl
  · exact sqrt_iter_eq n n (n / 2) (Nat.div_le_self n 2)

theorem bit_length_lt : ∀ (fuel x : Nat), x ≤ fuel → x < 2 ^ bit_length fuel x := by
  intro fuel
  induction fuel with
  | zero => intro x h; simp [bit_length]; omega
  | succ f ih =>
    intro x h
    by_cases h0 : x = 0
    · simp [bit_length, h0]
    · rw [bit_length, if_neg h0]
      have := ih (x / 2) (by omega)
      have h2 : 2 ^ (bit_length f (x / 2) + 1) = 2 * 2 ^ bit_length f (x / 2) := by ring
      omega

theorem bit_length_ge : ∀ (fuel x : Nat), x ≠ 0 → x ≤ fuel →
    2 ^ (bit_length fuel x - 1) ≤ x := by
  intro fuel
  induction fuel with
  | zero => intro x h0 h; omega
  | succ f ih =>
    intro x h0 h
    rw [bit_length, if_neg h0]
    by_cases h1 : x / 2 = 0
    · have hx : x = 1 := by omega
      subst hx
      cases f <;> simp [bit_length]
    · have := ih (x / 2) h1 (by omega)
      have hpos : 1 ≤ bit_length f (x / 2) := by
        cases f with
        | zero => omega
        | succ f1 => rw [bit_length, if_neg h1]; omega
      have h2 : 2 ^ (bit_length f (x / 2) + 1 - 1) = 2 * 2 ^ (bit_length f (x / 2) - 1) := by
        rw [Nat.add_sub_cancel]
        conv_lhs => rw [show bit_length f (x / 2) = (bit_length f (x / 2) - 1) + 1 by omega]
        ring
      omega

/-- The size of the model is the true bit length: `2 ^ (size - 1) <= |x| < 2 ^ size` for
`x` other than `0`. -/
theorem mpz_sizeinbase2_spec (x : Int) (hx : x ≠ 0) :
    2 ^ (mpz_sizeinbase2 x - 1) ≤ x.natAbs ∧ x.natAbs < 2 ^ mpz_sizeinbase2 x := by
  unfold mpz_sizeinbase2
  rw [if_neg hx]
  exact ⟨bit_length_ge _ _ (Int.natAbs_ne_zero.mpr hx) (le_refl _),
    bit_length_lt _ _ (le_refl _)⟩

theorem export_bytes_eq_digits : ∀ (fuel m : Nat) (acc : List Nat), m ≤ fuel →
    export_bytes fuel m acc = (Nat.digits 256 m).reverse ++ acc := by
  intro fuel
  induction fuel with
  | zero =>
    intro m acc h
    have h0 : m = 0 := by omega
    subst h0
    simp [export_bytes]
  | succ f ih =>
    intro m acc h
    by_cases h0 : m = 0
    · subst h0
      simp [export_bytes]
    · rw [export_bytes, if_neg h0, ih (m / 256) _ (by omega),
        Nat.digits_def' (by norm_num) (Nat.pos_of_ne_zero h0)]
      simp

/-- The export of the model lists the base-256 digits, most significant first. -/
theorem mpz_export_eq_digits (m : Int) :
    mpz_export m = (Nat.digits 256 m.natAbs).reverse := by
  unfold mpz_export
  rw [export_bytes_eq_digits _ _ _ (le_refl _), List.append_nil]

/-- The import of the model reads the bytes as base-256 digits, most significant first. -/
theorem mpz_import_eq_ofDigits (bytes : List Nat) :
    mpz_import bytes = ((Nat.ofDigits 256 bytes.reverse : Nat) : Int) := by
  unfold mpz_import
  congr 1
  rw [Nat.ofDigits_eq_foldr, List.foldr_reverse]
  congr 1
  funext acc b
  simp only [Nat.cast_id]
  ring

/-! ## pow_mod -/

theorem pow_step_odd (v p n : Int) (e : Nat) :
    ((v * p % n) * (p * p % n) ^ e) % n = (v * p ^ (2 * e + 1)) % n := by
  have h1 : v * p % n ≡ v * p [ZMOD n] := Int.mod_modEq _ _
  have h2 : (p * p % n) ^ e ≡ (p * p) ^ e [ZMOD n] := (Int.mod_modEq _ _).pow e
  have h3 := h1.mul h2
  have h4 : v * p * (p * p) ^ e = v * p ^ (2 * e + 1) := by
    rw [← pow_two, ← pow_mul]; ring
  rw [h4] at h3
  exact h3

theorem pow_step_even (v p n : Int) (e : Nat) :
    (v * (p * p % n) ^ e) % n = (v * p ^ (2 * e)) % n := by
  have h2 : (p * p % n) ^ e ≡ (p * p) ^ e [ZMOD n] := (Int.mod_modEq _ _).pow e
  have h3 := (Int.ModEq.refl v).mul h2
  have h4 : v * (p * p) ^ e = v * p ^ (2 * e) := by
    rw [← pow_two, ← pow_mul]
  rw [h4] at h3
  exact h3

/-- The loop of `pow_mod` with a natural exponent below `2 ^ fuel`: the accumulator is
returned unchanged for exponent `0` and is `v * p ^ d` reduced modulo `n` otherwise. -/
theorem pow_mod_loop_spec (n : Int) (hn : n ≠ 0) : ∀ (fuel d : Nat) (v p : Int),
    d < 2 ^ fuel →
    pow_mod_loop (fuel + 1) v p (d : Int) n = .ok (if d = 0 then v else (v * p ^ d) % n) := by
  intro fuel
  induction fuel with
  | zero =>
    intro d v p hd
    have h0 : d = 0 := by simpa using hd
    subst h0
    simp [pow_mod_loop]
  | succ k ih =>
    intro d v p hd
    by_cases h0 : d = 0
    · subst h0
      simp [pow_mod_loop]
    · have hpos : (d : Int) > 0 := by
        have : 0 < d := Nat.pos_of_ne_zero h0
        exact_mod_cast this
      have hhalf : d / 2 < 2 ^ k := by
        have : 2 ^ (k + 1) = 2 * 2 ^ k := by ring
        omega
      rw [pow_mod_loop, if_pos hpos, fdiv_two_cast, mpz_mod_ok _ _ hn, mpz_mod_ok _ _ hn]
      by_cases hodd : (d : Int) % 2 = 1
      · rw [if_pos hodd]
        simp only [Outcome.bind_ok]
        rw [ih (d / 2) _ _ hhalf, if_neg h0]
        have hd2 : d = 2 * (d / 2) + 1 := by omega
        by_cases hz : d / 2 = 0
        · rw [if_pos hz]
          have : d = 1 := by omega
          subst this
          simp
        · rw [if_neg hz, pow_step_odd]
          rw [← hd2]
      · rw [if_neg hodd]
        simp only [Outcome.bind_ok]
        rw [ih (d / 2) _ _ hhalf, if_neg h0]
        have hd2 : d = 2 * (d / 2) := by omega
        have hz : d / 2 ≠ 0 := by omega
        rw [if_neg hz, pow_step_even]
        rw [← hd2]

/-- Closed form of `pow_mod` for a natural exponent: `1` for exponent `0`, the reduced
power otherwise, as soon as the fuel exceeds the number of bits of the exponent. -/
theorem pow_mod_nat (a n : Int) (hn : n ≠ 0) (d fuel : Nat) (hf : d < 2 ^ fuel) :
    pow_mod (fuel + 1) a (d : Int) n = .ok (if d = 0 then 1 else a ^ d % n) := by
  unfold pow_mod
  rw [pow_mod_loop_spec n hn fuel d 1 a hf]
  simp

theorem pow_mod_nat_le (a n : Int) (hn : n ≠ 0) (d fuel : Nat) (hf : d < fuel) :
    pow_mod fuel a (d : Int) n = .ok (if d = 0 then 1 else a ^ d % n) := by
  obtain ⟨k, rfl⟩ : ∃ k, fuel = k + 1 := ⟨fuel - 1, by omega⟩
  exact pow_mod_nat a n hn d k (lt_of_lt_of_le (Nat.lt_succ_of_le (Nat.le_of_lt_succ hf))
    (Nat.succ_le_of_lt (Nat.lt_two_pow k)))

/-! ## gcd -/

theorem gcd_emod_step (a b : Int) : Int.gcd b (a % b) = Int.gcd a b := by
  have hsplit : a = b * (a / b) + a % b := (Int.ediv_add_emod a b).symm
  apply Nat.dvd_antisymm
  · apply Int.natCast_dvd_natCast.mp
    apply Int.dvd_gcd
    · have h1 : ((Int.gcd b (a % b) : Nat) : Int) ∣ b := Int.gcd_dvd_left
      have h2 : ((Int.gcd b (a % b) : Nat) : Int) ∣ a % b := Int.gcd_dvd_right
      have h3 : ((Int.gcd b (a % b) : Nat) : Int) ∣ b * (a / b) + a % b :=
        dvd_add (Dvd.dvd.mul_right h1 _) h2
      rw [← hsplit] at h3
      exact h3
    · exact Int.gcd_dvd_left
  · apply Int.natCast_dvd_natCast.mp
    apply Int.dvd_gcd
    · exact Int.gcd_dvd_right
    · have h1 : ((Int.gcd a b : Nat) : Int) ∣ a := Int.gcd_dvd_left
      have h2 : ((Int.gcd a b : Nat) : Int) ∣ b := Int.gcd_dvd_right
      have h3 : a % b = a - b * (a / b) := Int.emod_def a b
      rw [h3]
      exact dvd_sub h1 (Dvd.dvd.mul_right h2 _)

/-- The loop of `gcd` returns the mathematical gcd once the fuel exceeds `b`, for a
non-negative `b` (and a non-negative `a` when `b = 0`). -/
theorem gcd_spec : ∀ (fuel : Nat) (a b : Int), 0 ≤ b → (b = 0 → 0 ≤ a) → b.toNat < fuel →
    gcd fuel a b = .ok ((Int.gcd a b : Nat) : Int) := by
  intro fuel
  induction fuel with
  | zero => intro a b _ _ h; omega
  | succ k ih =>
    intro a b hb ha hf
    by_cases h0 : b = 0
    · subst h0
      simp [gcd, abs_of_nonneg (ha rfl)]
    · have hpos : 0 < b := lt_of_le_of_ne hb (Ne.symm h0)
      have h1 : 0 ≤ a % b := Int.emod_nonneg a h0
      have h2 : a % b < b := Int.emod_lt_of_pos a hpos
      rw [gcd, if_neg h0, mpz_mod_ok _ _ h0, Outcome.bind_ok,
        ih b (a % b) h1 (fun _ => hb) (by omega), gcd_emod_step]

/-! ## mod_inverse -/

theorem mod_inverse_loop_mono : ∀ (fuel : Nat) (r r1 t t1 : Int) (v : Int × Int),
    mod_inverse_loop fuel r r1 t t1 = .ok v →
    ∀ k, mod_inverse_loop (fuel + k) r r1 t t1 = .ok v := by
  intro fuel
  induction fuel with
  | zero => intro r r1 t t1 v h; simp [mod_inverse_loop] at h
  | succ n ih =>
    intro r r1 t t1 v h k
    rw [show n + 1 + k = (n + k) + 1 by omega]
    rw [mod_inverse_loop] at h ⊢
    by_cases h0 : r1 = 0
    · rw [if_pos h0] at h ⊢
      exact h
    · rw [if_neg h0] at h ⊢
      simp only [mpz_fdiv_q, if_neg h0, Outcome.bind_ok] at h ⊢
      exact ih _ _ _ _ _ h k

theorem mod_inverse_mono (fuel : Nat) (a n o : Int) (h : mod_inverse fuel a n = .ok o) (k : Nat) :
    mod_inverse (fuel + k) a n = .ok o := by
  unfold mod_inverse at h ⊢
  cases hl : mod_inverse_loop fuel n a 0 1 with
  | ok v =>
    rw [hl] at h
    rw [mod_inverse_loop_mono fuel n a 0 1 v hl k]
    exact h
  | div_by_zero => rw [hl] at h; simp [Outcome.bind] at h
  | fault => rw [hl] at h; simp [Outcome.bind] at h
  | out_of_fuel => rw [hl] at h; simp [Outcome.bind] at h

/-- The loop of `mod_inverse` from a non-negative `r1` (and a non-negative `r` when
`r1 = 0`): it ends with `r = gcd(r, r1)` and keeps the congruences `r = t * a` and
`r1 = t1 * a` modulo `n`. -/
theorem mod_inverse_loop_spec (a n : Int) : ∀ (fuel : Nat) (r r1 t t1 : Int),
    0 ≤ r1 → (r1 = 0 → 0 ≤ r) → r1.toNat < fuel →
    r ≡ t * a [ZMOD n] → r1 ≡ t1 * a [ZMOD n] →
    ∃ t2, mod_inverse_loop fuel r r1 t t1 = .ok (((Int.gcd r r1 : Nat) : Int), t2) ∧
      ((Int.gcd r r1 : Nat) : Int) ≡ t2 * a [ZMOD n] := by
  intro fuel
  induction fuel with
  | zero => intro r r1 t t1 _ _ h; omega
  | succ k ih =>
    intro r r1 t t1 hr1 hr hf hc hc1
    by_cases h0 : r1 = 0
    · subst h0
      have hr0 : 0 ≤ r := hr rfl
      refine ⟨t, ?_, ?_⟩
      · simp [mod_inverse_loop, abs_of_nonneg hr0]
      · simpa [abs_of_nonneg hr0] using hc
    · have hpos : 0 < r1 := lt_of_le_of_ne hr1 (Ne.symm h0)
      have h1 : 0 ≤ r % r1 := Int.emod_nonneg r h0
      have h2 : r % r1 < r1 := Int.emod_lt_of_pos r hpos
      have hrem : r - r / r1 * r1 = r % r1 := by rw [Int.emod_def]; ring
      have hc2 : r % r1 ≡ (t - r / r1 * t1) * a [ZMOD n] := by
        rw [← hrem]
        have := hc.sub ((Int.ModEq.refl (r / r1)).mul hc1)
        have e : t * a - r / r1 * (t1 * a) = (t - r / r1 * t1) * a := by ring
        rw [e] at this
        exact this
      obtain ⟨t2, ht2, hg⟩ := ih r1 (r % r1) t1 (t - r / r1 * t1) h1 (fun _ => hr1)
        (by omega) hc1 hc2
      refine ⟨t2, ?_, ?_⟩
      · rw [mod_inverse_loop, if_neg h0, mpz_fdiv_q_ok _ _ hpos, Outcome.bind_ok, hrem, ht2,
          gcd_emod_step]
      · rw [gcd_emod_step] at hg
        exact hg

theorem gcd_no_div_by_zero : ∀ (fuel : Nat) (a b : Int), gcd fuel a b ≠ .div_by_zero := by
  intro fuel
  induction fuel with
  | zero => intro a b; simp [gcd]
  | succ k ih =>
    intro a b
    by_cases h0 : b = 0
    · simp [gcd, h0]
    · rw [gcd, if_neg h0, mpz_mod_ok _ _ h0, Outcome.bind_ok]
      exact ih _ _

theorem Outcome.bind_eq_ok {α β : Type} {x : Outcome α} {f : α → Outcome β} {v : β}
    (h : x.bind f = .ok v) : ∃ a, x = .ok a ∧ f a = .ok v := by
  cases x with
  | ok a => exact ⟨a, rfl, h⟩
  | div_by_zero => simp [Outcome.bind] at h
  | fault => simp [Outcome.bind] at h
  | out_of_fuel => simp [Outcome.bind] at h

/-- For `a > 0` coprime to `n`, `mod_inverse` returns an `o` with `a * o = 1` modulo `n`
(for every modulus `n`, also `n = 1`). -/
theorem mod_inverse_modEq (a n : Int) (ha : 0 < a) (hg : Int.gcd a n = 1) (fuel : Nat)
    (hf : a.toNat < fuel) : ∃ o, mod_inverse fuel a n = .ok o ∧ a * o ≡ 1 [ZMOD n] := by
  obtain ⟨t2, hl, hc⟩ := mod_inverse_loop_spec a n fuel n a 0 1 (le_of_lt ha)
    (fun h => by omega) hf (by simp [Int.ModEq]) (by simp)
  rw [Int.gcd_comm, hg] at hl hc
  have hc1 : t2 * a ≡ 1 [ZMOD n] := by simpa using hc.symm
  by_cases ht : t2 < 0
  · refine ⟨t2 + n, by simp [mod_inverse, hl, ht], ?_⟩
    have e : a * (t2 + n) = t2 * a + n * a := by ring
    rw [e]
    have h2 : t2 * a + n * a ≡ t2 * a + 0 [ZMOD n] :=
      (Int.ModEq.refl _).add ((Int.modEq_zero_iff_dvd).mpr (Dvd.intro _ rfl))
    rw [add_zero] at h2
    exact h2.trans hc1
  · refine ⟨t2, by simp [mod_inverse, hl, ht], ?_⟩
    rw [mul_comm]
    exact hc1

/-- For `a > 0`, `mod_inverse` returns a value as soon as the fuel exceeds `a`. -/
theorem mod_inverse_total (a n : Int) (ha : 0 < a) (fuel : Nat) (hf : a.toNat < fuel) :
    ∃ o, mod_inverse fuel a n = .ok o := by
  obtain ⟨t2, hl, _⟩ := mod_inverse_loop_spec a n fuel n a 0 1 (le_of_lt ha)
    (fun h => by omega) hf (by simp [Int.ModEq]) (by simp)
  unfold mod_inverse
  rw [hl, Outcome.bind_ok]
  split_ifs <;> exact ⟨_, rfl⟩

/-! ## Bit lengths -/

theorem bit_length_le : ∀ (fuel x k : Nat), x < 2 ^ k → bit_length fuel x ≤ k := by
  intro fuel
  induction fuel with
  | zero => intro x k _; simp [bit_length]
  | succ f ih =>
    intro x k hx
    by_cases h0 : x = 0
    · simp [bit_length, h0]
    · rw [bit_length, if_neg h0]
      obtain ⟨k1, rfl⟩ : ∃ k1, k = k1 + 1 := by
        cases k with
        | zero => simp at hx; exact absurd hx h0
        | succ k1 => exact ⟨k1, rfl⟩
      have h2 : 2 ^ (k1 + 1) = 2 * 2 ^ k1 := by ring
      have := ih (x / 2) k1 (by omega)
      omega

theorem is_prime_zero (fuel iters : Nat) (g : Nat → Nat) (pos : Nat) :
    is_prime fuel 0 iters g pos = .ok (false, pos) := by
  simp [is_prime]

/-! ## Miller-Rabin on primes -/

/-- Modulo a prime the only square roots of `1` in `[0, n)` are `1` and `n - 1`. -/
theorem sq_eq_one_of_prime (n : Nat) (hp : n.Prime) (y : Int) (h0 : 0 ≤ y) (hlt : y < n)
    (h : y ^ 2 ≡ 1 [ZMOD n]) : y = 1 ∨ y = n - 1 := by
  have hn2 : (2 : Int) ≤ n := by exact_mod_cast hp.two_le
  have hd : (n : Int) ∣ (y - 1) * (y + 1) := by
    have := Int.modEq_iff_dvd.mp h.symm
    have e : (y - 1) * (y + 1) = y ^ 2 - 1 := by ring
    rw [e]
    exact this
  rcases Int.Prime.dvd_mul' hp hd with h1 | h1
  · left
    have := Int.eq_zero_of_abs_lt_dvd h1 (by rw [abs_lt]; constructor <;> omega)
    omega
  · right
    have h2 : (n : Int) ∣ y + 1 - n := dvd_sub h1 (dvd_refl _)
    have := Int.eq_zero_of_abs_lt_dvd h2 (by rw [abs_lt]; constructor <;> omega)
    omega

/-- The halving loop on a positive number `c`: it returns the odd part `r` of `c` and
adds to the counter the exponent `k` with `c = 2 ^ k * r`. -/
theorem is_prime_split_spec : ∀ (fuel c s0 : Nat), 0 < c → c < fuel →
    ∃ r k : Nat, is_prime_split fuel (c : Int) s0 = .ok ((r : Int), s0 + k) ∧
      c = 2 ^ k * r ∧ r % 2 = 1 := by
  intro fuel
  induction fuel with
  | zero => intro c s0 _ h; omega
  | succ f ih =>
    intro c s0 hc hf
    by_cases heven : c % 2 = 0
    · have hcast : (c : Int) % 2 = 0 := by omega
      obtain ⟨r, k, hr, hck, hodd⟩ := ih (c / 2) (s0 + 1) (by omega) (by omega)
      refine ⟨r, k + 1, ?_, ?_, hodd⟩
      · rw [is_prime_split, if_pos hcast, fdiv_two_cast, hr]
        congr 2
        omega
      · have : c = 2 * (c / 2) := by omega
        rw [this, hck]
        ring
    · have hcast : ¬ (c : Int) % 2 = 0 := by omega
      refine ⟨c, 0, ?_, by simp, by omega⟩
      rw [is_prime_split, if_neg hcast]
      rfl

/-- For a prime `n`, the inner loop started on a `y` other than `1` whose `2 ^ m`-th power
is `1` modulo `n`, with `m = s + 1 - j` squarings left, ends with `y = n - 1` and never
returns `false`. -/
theorem is_prime_inner_prime (n : Nat) (hp : n.Prime) (s : Nat) : ∀ (m fuel : Nat) (y : Int)
    (j : Nat), 0 ≤ y → y < n → y ≠ 1 → y ^ (2 ^ m) ≡ 1 [ZMOD n] → j + m = s + 1 → 1 ≤ j →
    m + 4 ≤ fuel → is_prime_inner fuel y n j s = .ok (some ((n : Int) - 1)) := by
  have hn2 : (2 : Int) ≤ n := by exact_mod_cast hp.two_le
  have hn0 : (n : Int) ≠ 0 := by omega
  intro m
  induction m with
  | zero =>
    intro fuel y j h0 hlt h1 hpow _ _ _
    exfalso
    rw [pow_zero, pow_one] at hpow
    unfold Int.ModEq at hpow
    rw [Int.emod_eq_of_lt h0 hlt, Int.emod_eq_of_lt (by norm_num) (by omega)] at hpow
    exact h1 hpow
  | succ m ih =>
    intro fuel y j h0 hlt h1 hpow hj hj1 hf
    obtain ⟨f, rfl⟩ : ∃ f, fuel = f + 1 := ⟨fuel - 1, by omega⟩
    by_cases hy : y = n - 1
    · rw [is_prime_inner, if_neg (by simp [hy]), hy]
    · have hm : 1 ≤ m := by
        by_contra hm0
        have hm00 : m = 0 := by omega
        subst hm00
        rcases sq_eq_one_of_prime n hp y h0 hlt (by simpa using hpow) with h | h
        · exact h1 h
        · exact hy h
      have hs : u64_pred s = s - 1 := by
        unfold u64_pred
        rw [if_neg (by omega)]
      have hcond : j ≤ u64_pred s ∧ y ≠ (n : Int) - 1 := ⟨by rw [hs]; omega, hy⟩
      have hpm : pow_mod f y ((2 : Nat) : Int) n = .ok (if (2 : Nat) = 0 then 1 else y ^ 2 % n) :=
        pow_mod_nat_le y n hn0 2 f (by omega)
      rw [if_neg (by norm_num)] at hpm
      have hy1nn : 0 ≤ y ^ 2 % (n : Int) := Int.emod_nonneg _ hn0
      have hy1lt : y ^ 2 % (n : Int) < n := Int.emod_lt_of_pos _ (by omega)
      have hpow1 : (y ^ 2 % (n : Int)) ^ (2 ^ m) ≡ 1 [ZMOD n] := by
        have h2 : (y ^ 2 % (n : Int)) ^ (2 ^ m) ≡ (y ^ 2) ^ (2 ^ m) [ZMOD n] :=
          (Int.mod_modEq _ _).pow _
        have e : (y ^ 2) ^ (2 ^ m) = y ^ (2 ^ (m + 1)) := by
          rw [← pow_mul, pow_succ, mul_comm]
        rw [e] at h2
        exact h2.trans hpow
      have hy1 : y ^ 2 % (n : Int) ≠ 1 := by
        intro h
        have hsq : y ^ 2 ≡ 1 [ZMOD n] := by
          unfold Int.ModEq
          rw [h, Int.emod_eq_of_lt (by norm_num) (by omega)]
        rcases sq_eq_one_of_prime n hp y h0 hlt hsq with h | h
        · exact h1 h
        · exact hy h
      rw [is_prime_inner, if_pos hcond]
      have hpm2 : pow_mod f y 2 n = .ok (y ^ 2 % n) := by exact_mod_cast hpm
      rw [hpm2, Outcome.bind_ok, if_neg hy1]
      exact ih f _ (j + 1) hy1nn hy1lt hy1 hpow1 (by omega) (by omega) (by omega)

/-- Fermat for a witness in `[2, n - 2]`: the odd-part power of the witness, raised to
`2 ^ s`, is `1` modulo the prime `n = 2 ^ s * r + 1`. -/
theorem witness_pow_eq_one (n : Nat) (hp : n.Prime) (r s : Nat) (hdec : n - 1 = 2 ^ s * r)
    (a : Nat) (ha : 0 < a) (han : a < n) :
    (((a : Int) ^ r) % (n : Int)) ^ (2 ^ s) ≡ 1 [ZMOD n] := by
  have hcop : IsCoprime (a : Int) (n : Int) := by
    rw [Int.isCoprime_iff_gcd_eq_one]
    have h1 : Nat.Coprime n a :=
      (Nat.Prime.coprime_iff_not_dvd hp).mpr (Nat.not_dvd_of_pos_of_lt ha han)
    have h2 : Int.gcd (a : Int) (n : Int) = Nat.gcd a n := by simp [Int.gcd]
    rw [h2]
    exact Nat.coprime_comm.mp h1
  have hf := Int.ModEq.pow_card_sub_one_eq_one hp hcop
  have h2 : (((a : Int) ^ r) % (n : Int)) ^ (2 ^ s) ≡ ((a : Int) ^ r) ^ (2 ^ s) [ZMOD n] :=
    (Int.mod_modEq _ _).pow _
  have e : ((a : Int) ^ r) ^ (2 ^ s) = (a : Int) ^ (n - 1) := by
    rw [← pow_mul, hdec, mul_comm]
  rw [e] at h2
  exact h2.trans hf

/-- For a prime `n >= 5` with `n - 1 = 2 ^ s * r`, `r` odd, every round passes: the rounds
loop returns `true` whatever the generator delivers. -/
theorem is_prime_rounds_prime (n : Nat) (hp : n.Prime) (h5 : 5 ≤ n) (r s : Nat)
    (hdec : n - 1 = 2 ^ s * r) (hodd : r % 2 = 1) (iters : Nat) (g : Nat → Nat) :
    ∀ (k fuel i pos : Nat), iters - i = k → k + r + s + 6 ≤ fuel →
    ∃ pos1, is_prime_rounds fuel i iters n r s g pos = .ok (true, pos1) := by
  have hn0 : (n : Int) ≠ 0 := by omega
  intro k
  induction k with
  | zero =>
    intro fuel i pos hk hf
    obtain ⟨f, rfl⟩ : ∃ f, fuel = f + 1 := ⟨fuel - 1, by omega⟩
    refine ⟨pos, ?_⟩
    rw [is_prime_rounds, if_neg (by omega)]
  | succ k ih =>
    intro fuel i pos hk hf
    obtain ⟨f, rfl⟩ : ∃ f, fuel = f + 1 := ⟨fuel - 1, by omega⟩
    have hb : (n : Int) - 3 = ((n - 3 : Nat) : Int) := by omega
    have hb0 : (n : Int) - 3 ≠ 0 := by omega
    have hw : ((g pos : Nat) : Int) % ((n : Int) - 3) + 2
        = ((g pos % (n - 3) + 2 : Nat) : Int) := by
      rw [hb, ← Int.natCast_mod]
      norm_cast
    have hlt : g pos % (n - 3) < n - 3 := Nat.mod_lt _ (by omega)
    have hpm := pow_mod_nat_le ((g pos % (n - 3) + 2 : Nat) : Int) n hn0 r f (by omega)
    rw [if_neg (by omega)] at hpm
    have hfermat := witness_pow_eq_one n hp r s hdec (g pos % (n - 3) + 2) (by omega) (by omega)
    obtain ⟨pos1, hrec⟩ := ih f (i + 1) (pos + 1) (by omega) (by omega)
    refine ⟨pos1, ?_⟩
    rw [is_prime_rounds, if_pos (by omega)]
    simp only [mpz_urandomm, if_neg hb0, Outcome.bind_ok]
    rw [hw, hpm, Outcome.bind_ok]
    split_ifs with hcond
    · have hin := is_prime_inner_prime n hp s s f _ 1 (Int.emod_nonneg _ hn0)
        (Int.emod_lt_of_pos _ (by omega)) hcond.1 hfermat (by omega) (le_refl 1) (by omega)
      rw [hin, Outcome.bind_ok]
      simp only [ne_eq, not_true_eq_false, if_false]
      exact hrec
    · exact hrec

/-- The core of claim C6: `is_prime` returns `true` on every prime, for every number of
rounds and every generator sequence, once the fuel exceeds `iters + 2 n + 6`. -/
theorem is_prime_of_prime (n : Nat) (hp : n.Prime) (iters : Nat) (g : Nat → Nat) (pos : Nat)
    (fuel : Nat) (hf : iters + 2 * n + 6 ≤ fuel) :
    ∃ pos1, is_prime fuel n iters g pos = .ok (true, pos1) := by
  by_cases h2 : n = 2
  · subst h2
    exact ⟨pos, by simp [is_prime]⟩
  by_cases h3 : n = 3
  · subst h3
    exact ⟨pos, by simp [is_prime]⟩
  have hodd : n % 2 = 1 := by
    rcases hp.eq_two_or_odd with h | h
    · exact absurd h h2
    · exact h
  have hge : 2 ≤ n := hp.two_le
  have h5 : 5 ≤ n := by omega
  obtain ⟨r, k, hsplit, hdec, hrodd⟩ := is_prime_split_spec fuel (n - 1) 0 (by omega) (by omega)
  have hk : k < 2 ^ k := Nat.lt_two_pow k
  have hrpos : 0 < r := by omega
  have hkle : 2 ^ k ≤ n - 1 := by
    rw [hdec]
    exact Nat.le_mul_of_pos_right _ hrpos
  have hrle : r ≤ n - 1 := by
    rw [hdec]
    exact Nat.le_mul_of_pos_left _ (by positivity)
  obtain ⟨pos1, hr⟩ := is_prime_rounds_prime n hp h5 r (0 + k) (by simpa using hdec) hrodd iters g
    iters fuel 0 pos (by omega) (by omega)
  refine ⟨pos1, ?_⟩
  have hcast : (n : Int) - 1 = ((n - 1 : Nat) : Int) := by omega
  unfold is_prime
  rw [if_neg (by omega), if_neg (by omega), if_neg (by omega), hcast, hsplit, Outcome.bind_ok]
  exact hr

/-! ## More fuel never changes a returned value -/

theorem pow_mod_loop_mono : ∀ (fuel : Nat) (v p d n w : Int),
    pow_mod_loop fuel v p d n = .ok w → ∀ k, pow_mod_loop (fuel + k) v p d n = .ok w := by
  intro fuel
  induction fuel with
  | zero => intro v p d n w h; simp [pow_mod_loop] at h
  | succ f ih =>
    intro v p d n w h k
    rw [show f + 1 + k = (f + k) + 1 by omega]
    rw [pow_mod_loop] at h ⊢
    by_cases hd : d > 0
    · rw [if_pos hd] at h ⊢
      obtain ⟨v1, hv1, h1⟩ := Outcome.bind_eq_ok h
      obtain ⟨p1, hp1, h2⟩ := Outcome.bind_eq_ok h1
      rw [hv1, Outcome.bind_ok, hp1, Outcome.bind_ok]
      exact ih _ _ _ _ _ h2 k
    · rw [if_neg hd] at h ⊢
      exact h

theorem pow_mod_mono (fuel : Nat) (a d n w : Int) (h : pow_mod fuel a d n = .ok w) (k : Nat) :
    pow_mod (fuel + k) a d n = .ok w :=
  pow_mod_loop_mono fuel 1 a d n w h k

theorem is_prime_split_mono : ∀ (fuel : Nat) (c : Int) (s : Nat) (v : Int × Nat),
    is_prime_split fuel c s = .ok v → ∀ k, is_prime_split (fuel + k) c s = .ok v := by
  intro fuel
  induction fuel with
  | zero => intro c s v h; simp [is_prime_split] at h
  | succ f ih =>
    intro c s v h k
    rw [show f + 1 + k = (f + k) + 1 by omega]
    rw [is_prime_split] at h ⊢
    split_ifs at h ⊢ with hc
    · exact ih _ _ _ h k
    · exact h

theorem is_prime_inner_mono : ∀ (fuel : Nat) (y n : Int) (j s : Nat) (v : Option Int),
    is_prime_inner fuel y n j s = .ok v → ∀ k, is_prime_inner (fuel + k) y n j s = .ok v := by
  intro fuel
  induction fuel with
  | zero => intro y n j s v h; simp [is_prime_inner] at h
  | succ f ih =>
    intro y n j s v h k
    rw [show f + 1 + k = (f + k) + 1 by omega]
    rw [is_prime_inner] at h ⊢
    split_ifs at h ⊢ with hc
    · obtain ⟨y1, hy1, h1⟩ := Outcome.bind_eq_ok h
      rw [pow_mod_mono f y 2 n y1 hy1 k, Outcome.bind_ok]
      split_ifs at h1 ⊢ with h2
      · exact h1
      · exact ih _ _ _ _ _ h1 k
    · exact h

theorem is_prime_rounds_mono : ∀ (fuel i iters : Nat) (n r : Int) (s : Nat) (g : Nat → Nat)
    (pos : Nat) (v : Bool × Nat), is_prime_rounds fuel i iters n r s g pos = .ok v →
    ∀ k, is_prime_rounds (fuel + k) i iters n r s g pos = .ok v := by
  intro fuel
  induction fuel with
  | zero => intro i iters n r s g pos v h; simp [is_prime_rounds] at h
  | succ f ih =>
    intro i iters n r s g pos v h k
    rw [show f + 1 + k = (f + k) + 1 by omega]
    rw [is_prime_rounds] at h ⊢
    split_ifs at h ⊢ with hi
    · obtain ⟨w, hw, h1⟩ := Outcome.bind_eq_ok h
      obtain ⟨y, hy, h2⟩ := Outcome.bind_eq_ok h1
      rw [hw, Outcome.bind_ok, pow_mod_mono f _ _ _ y hy k, Outcome.bind_ok]
      split_ifs at h2 ⊢ with hc
      · obtain ⟨res, hres, h3⟩ := Outcome.bind_eq_ok h2
        rw [is_prime_inner_mono f _ _ _ _ res hres k, Outcome.bind_ok]
        cases res with
        | none => exact h3
        | some y1 =>
          simp only at h3 ⊢
          split_ifs at h3 ⊢ with h4
          · exact h3
          · exact ih _ _ _ _ _ _ _ _ h3 k
      · exact ih _ _ _ _ _ _ _ _ h2 k
    · exact h

theorem is_prime_mono (fuel : Nat) (n : Int) (iters : Nat) (g : Nat → Nat) (pos : Nat)
    (v : Bool × Nat) (h : is_prime fuel n iters g pos = .ok v) (k : Nat) :
    is_prime (fuel + k) n iters g pos = .ok v := by
  unfold is_prime at h ⊢
  split_ifs at h ⊢ with h2 h3 h4
  · exact h
  · exact h
  · exact h
  · obtain ⟨rs, hrs, h1⟩ := Outcome.bind_eq_ok h
    rw [is_prime_split_mono fuel _ _ rs hrs k, Outcome.bind_ok]
    exact is_prime_rounds_mono fuel _ _ _ _ _ _ _ v h1 k

theorem trial_division_prime_iff (n : Nat) : trial_division_prime n ↔ n.Prime := by
  rw [Nat.prime_def_lt]
  unfold trial_division_prime
  constructor
  · rintro ⟨h2, h⟩
    refine ⟨h2, fun m hm hd => ?_⟩
    by_contra h1
    have hm0 : m ≠ 0 := by
      rintro rfl
      rw [zero_dvd_iff] at hd
      omega
    exact h m hm (by omega) hd
  · rintro ⟨h2, h⟩
    refine ⟨h2, fun d hd h1 hdvd => ?_⟩
    have := h d hd hdvd
    omega

/-! ## Miller-Rabin on arbitrary odd numbers -/

/-- The inner loop always ends (for `1 <= j <= s`), and when it ends with `y = n - 1` some
repeated square `y ^ (2 ^ t)` with `j + t <= s` is `n - 1` modulo `n`. -/
theorem is_prime_inner_spec (n : Int) (hn : 1 < n) (s : Nat) (hs : 1 ≤ s) :
    ∀ (m fuel : Nat) (y : Int) (j : Nat), s + 1 ≤ j + m → j ≤ s → m + 4 ≤ fuel →
    ∃ res, is_prime_inner fuel y n j s = .ok res ∧
      (res = some (n - 1) → ∃ t, j + t ≤ s ∧ y ^ (2 ^ t) ≡ n - 1 [ZMOD n]) := by
  have hn0 : n ≠ 0 := by omega
  have hpred : u64_pred s = s - 1 := by
    unfold u64_pred
    rw [if_neg (by omega)]
  intro m
  induction m with
  | zero => intro fuel y j h1 h2 _; omega
  | succ m ih =>
    intro fuel y j hjm hj hf
    obtain ⟨f, rfl⟩ : ∃ f, fuel = f + 1 := ⟨fuel - 1, by omega⟩
    by_cases hcond : j ≤ u64_pred s ∧ y ≠ n - 1
    · have hpm : pow_mod f y ((2 : Nat) : Int) n = .ok (if (2 : Nat) = 0 then 1 else y ^ 2 % n) :=
        pow_mod_nat_le y n hn0 2 f (by omega)
      rw [if_neg (by norm_num)] at hpm
      have hpm2 : pow_mod f y 2 n = .ok (y ^ 2 % n) := by exact_mod_cast hpm
      rw [is_prime_inner, if_pos hcond, hpm2, Outcome.bind_ok]
      by_cases h1 : y ^ 2 % n = 1
      · rw [if_pos h1]
        exact ⟨none, rfl, fun h => by simp at h⟩
      · rw [if_neg h1]
        have hj1 : j ≤ s - 1 := by rw [← hpred]; exact hcond.1
        obtain ⟨res, hres, hprop⟩ := ih f (y ^ 2 % n) (j + 1) (by omega) (by omega) (by omega)
        refine ⟨res, hres, fun h => ?_⟩
        obtain ⟨t, ht, hpow⟩ := hprop h
        refine ⟨t + 1, by omega, ?_⟩
        have h2 : (y ^ 2 % n) ^ (2 ^ t) ≡ (y ^ 2) ^ (2 ^ t) [ZMOD n] := (Int.mod_modEq _ _).pow _
        have e : (y ^ 2) ^ (2 ^ t) = y ^ (2 ^ (t + 1)) := by
          rw [← pow_mul, pow_succ, mul_comm]
        rw [e] at h2
        exact h2.symm.trans hpow
    · rw [is_prime_inner, if_neg hcond]
      refine ⟨some y, rfl, fun h => ⟨0, by omega, ?_⟩⟩
      injection h with h
      rw [h]
      simp

/-- The rounds loop always ends for `n >= 5`, and when it returns `true` every witness it
drew is a strong liar for `n`. -/
theorem is_prime_rounds_spec (n : Nat) (h5 : 5 ≤ n) (r s : Nat) (hs : 1 ≤ s) (hr : r ≠ 0)
    (iters : Nat) (g : Nat → Nat) :
    ∀ (k fuel i pos : Nat), iters - i = k → k + r + s + 6 ≤ fuel →
    ∃ b pos1, is_prime_rounds fuel i iters n r s g pos = .ok (b, pos1) ∧
      (b = true → ∀ i1, i ≤ i1 → i1 < iters →
        strong_liar n r s ((g (pos + (i1 - i)) % (n - 3) + 2 : Nat) : Int)) := by
  have hn0 : (n : Int) ≠ 0 := by omega
  intro k
  induction k with
  | zero =>
    intro fuel i pos hk hf
    obtain ⟨f, rfl⟩ : ∃ f, fuel = f + 1 := ⟨fuel - 1, by omega⟩
    refine ⟨true, pos, ?_, fun _ i1 h1 h2 => by omega⟩
    rw [is_prime_rounds, if_neg (by omega)]
  | succ k ih =>
    intro fuel i pos hk hf
    obtain ⟨f, rfl⟩ : ∃ f, fuel = f + 1 := ⟨fuel - 1, by omega⟩
    have hb : (n : Int) - 3 = ((n - 3 : Nat) : Int) := by omega
    have hb0 : (n : Int) - 3 ≠ 0 := by omega
    have hw : ((g pos : Nat) : Int) % ((n : Int) - 3) + 2
        = ((g pos % (n - 3) + 2 : Nat) : Int) := by
      rw [hb, ← Int.natCast_mod]
      norm_cast
    have hpm := pow_mod_nat_le ((g pos % (n - 3) + 2 : Nat) : Int) n hn0 r f (by omega)
    rw [if_neg hr] at hpm
    obtain ⟨b, pos1, hrec, hliars⟩ := ih f (i + 1) (pos + 1) (by omega) (by omega)
    have hrest : b = true → ∀ i1, i + 1 ≤ i1 → i1 < iters →
        strong_liar n r s ((g (pos + (i1 - i)) % (n - 3) + 2 : Nat) : Int) := by
      intro hbt i1 h1 h2
      have := hliars hbt i1 h1 h2
      rw [show pos + 1 + (i1 - (i + 1)) = pos + (i1 - i) by omega] at this
      exact this
    have hall : strong_liar n r s ((g pos % (n - 3) + 2 : Nat) : Int) →
        b = true → ∀ i1, i ≤ i1 → i1 < iters →
        strong_liar n r s ((g (pos + (i1 - i)) % (n - 3) + 2 : Nat) : Int) := by
      intro hfirst hbt i1 h1 h2
      by_cases hi : i1 = i
      · subst hi
        simpa using hfirst
      · exact hrest hbt i1 (by omega) h2
    rw [is_prime_rounds, if_pos (by omega)]
    simp only [mpz_urandomm, if_neg hb0, Outcome.bind_ok]
    rw [hw, hpm, Outcome.bind_ok]
    by_cases hcond : ((g pos % (n - 3) + 2 : Nat) : Int) ^ r % (n : Int) ≠ 1 ∧
        ((g pos % (n - 3) + 2 : Nat) : Int) ^ r % (n : Int) ≠ (n : Int) - 1
    · rw [if_pos hcond]
      obtain ⟨res, hres, hprop⟩ := is_prime_inner_spec n (by omega) s hs s f
        (((g pos % (n - 3) + 2 : Nat) : Int) ^ r % (n : Int)) 1 (by omega) hs (by omega)
      rw [hres, Outcome.bind_ok]
      cases res with
      | none => exact ⟨false, pos + 1, rfl, fun h => by simp at h⟩
      | some y1 =>
        simp only
        by_cases hy1 : y1 ≠ (n : Int) - 1
        · rw [if_pos hy1]
          exact ⟨false, pos + 1, rfl, fun h => by simp at h⟩
        · rw [if_neg hy1]
          have hy1e : y1 = (n : Int) - 1 := not_not.mp hy1
          obtain ⟨t, ht, hpow⟩ := hprop (by rw [hy1e])
          refine ⟨b, pos1, hrec, hall ?_⟩
          right
          refine ⟨t, by omega, ?_⟩
          have h2 : (((g pos % (n - 3) + 2 : Nat) : Int) ^ r % (n : Int)) ^ (2 ^ t)
              ≡ (((g pos % (n - 3) + 2 : Nat) : Int) ^ r) ^ (2 ^ t) [ZMOD n] :=
            (Int.mod_modEq _ _).pow _
          have e : (((g pos % (n - 3) + 2 : Nat) : Int) ^ r) ^ (2 ^ t)
              = ((g pos % (n - 3) + 2 : Nat) : Int) ^ (2 ^ t * r) := by
            rw [← pow_mul, mul_comm]
          rw [e] at h2
          have h3 := h2.symm.trans hpow
          unfold Int.ModEq at h3
          rw [h3]
          exact Int.emod_eq_of_lt (by omega) (by omega)
    · rw [if_neg hcond]
      refine ⟨b, pos1, hrec, hall ?_⟩
      by_cases h1 : ((g pos % (n - 3) + 2 : Nat) : Int) ^ r % (n : Int) = 1
      · left
        exact h1
      · right
        refine ⟨0, by omega, ?_⟩
        have : ((g pos % (n - 3) + 2 : Nat) : Int) ^ r % (n : Int) = (n : Int) - 1 := by
          by_contra h2
          exact hcond ⟨h1, h2⟩
        simpa using this

/-- The verdict of `is_prime` on any natural number: it always returns, and it returns
`true` only for `2`, `3`, or an odd `n >= 5` all of whose drawn witnesses are strong liars. -/
theorem is_prime_verdict (n iters : Nat) (g : Nat → Nat) (pos fuel : Nat)
    (hf : iters + 2 * n + 6 ≤ fuel) :
    ∃ b pos1, is_prime fuel n iters g pos = .ok (b, pos1) ∧
      (b = true → n = 2 ∨ n = 3 ∨ (5 ≤ n ∧ n % 2 = 1 ∧ ∃ r s, n - 1 = 2 ^ s * r ∧ r % 2 = 1 ∧
        ∀ i, i < iters → strong_liar n r s ((g (pos + i) % (n - 3) + 2 : Nat) : Int))) := by
  by_cases h2 : n = 2
  · subst h2
    exact ⟨true, pos, by simp [is_prime], fun _ => Or.inl rfl⟩
  by_cases h3 : n = 3
  · subst h3
    exact ⟨true, pos, by simp [is_prime], fun _ => Or.inr (Or.inl rfl)⟩
  by_cases hev : n % 2 = 0 ∨ n < 2
  · refine ⟨false, pos, ?_, fun h => by simp at h⟩
    unfold is_prime
    rw [if_neg (by omega), if_neg (by omega), if_pos (by omega)]
  · have h5 : 5 ≤ n := by omega
    obtain ⟨r, k, hsplit, hdec, hrodd⟩ := is_prime_split_spec fuel (n - 1) 0 (by omega) (by omega)
    have hk : k < 2 ^ k := Nat.lt_two_pow k
    have hrpos : 0 < r := by omega
    have hkle : 2 ^ k ≤ n - 1 := by
      rw [hdec]
      exact Nat.le_mul_of_pos_right _ hrpos
    have hrle : r ≤ n - 1 := by
      rw [hdec]
      exact Nat.le_mul_of_pos_left _ (by positivity)
    have hk1 : 1 ≤ k := by
      by_contra hk0
      have : k = 0 := by omega
      subst this
      rw [pow_zero, one_mul] at hdec
      omega
    obtain ⟨b, pos1, hr, hliars⟩ := is_prime_rounds_spec n h5 r (0 + k) (by omega) (by omega)
      iters g iters fuel 0 pos (by omega) (by omega)
    refine ⟨b, pos1, ?_, fun hb => Or.inr (Or.inr ⟨h5, by omega, r, 0 + k, by simpa using hdec,
      hrodd, fun i hi => ?_⟩)⟩
    · have hcast : (n : Int) - 1 = ((n - 1 : Nat) : Int) := by omega
      unfold is_prime
      rw [if_neg (by omega), if_neg (by omega), if_neg (by omega), hcast, hsplit, Outcome.bind_ok]
      exact hr
    · have := hliars hb i (by omega) hi
      simpa using this

/-! ## Bit lengths of the generated primes -/

/-- A value returned by `make_prime` lies in `[2 ^ bits, 2 ^ (bits + 1))`. -/
theorem make_prime_range (bits iters : Nat) (g : Nat → Nat) (p : Int) (pos1 : Nat)
    (hb : bits < 2 ^ 64) : ∀ (fuel pos : Nat),
    make_prime fuel bits iters g pos = .ok (p, pos1) →
    (2 : Int) ^ bits ≤ p ∧ p < 2 ^ (bits + 1) := by
  intro fuel
  induction fuel with
  | zero => intro pos h; simp [make_prime] at h
  | succ f ih =>
    intro pos h
    rw [make_prime] at h
    simp only [mpz_urandomb] at h
    by_cases hsz : mpz_sizeinbase2 ((g pos % 2 ^ ((bits + 1) % 2 ^ 64) : Nat) : Int)
        < (bits + 1) % 2 ^ 64
    · rw [if_pos hsz] at h
      exact ih _ h
    · rw [if_neg hsz] at h
      obtain ⟨res, hres, h2⟩ := Outcome.bind_eq_ok h
      by_cases hr1 : res.1 = true
      · rw [if_pos hr1] at h2
        injection h2 with h2
        injection h2 with hp _
        have hne : g pos % 2 ^ ((bits + 1) % 2 ^ 64) ≠ 0 := by
          intro h0
          rw [h0] at hres
          simp only [Nat.cast_zero, is_prime_zero] at hres
          injection hres with hres
          rw [← hres] at hr1
          simp at hr1
        have hnb : (bits + 1) % 2 ^ 64 = bits + 1 := by
          by_contra hc
          have h64 : bits + 1 = 2 ^ 64 := by omega
          rw [h64, Nat.mod_self, pow_zero] at hne
          exact hne (Nat.mod_one _)
        rw [hnb] at hsz hne hp
        subst hp
        have hne2 : ((g pos % 2 ^ (bits + 1) : Nat) : Int) ≠ 0 := by exact_mod_cast hne
        unfold mpz_sizeinbase2 at hsz
        rw [if_neg hne2, Int.natAbs_ofNat] at hsz
        constructor
        · by_contra hlt
          have hlt2 : g pos % 2 ^ (bits + 1) < 2 ^ bits := by
            have : ((g pos % 2 ^ (bits + 1) : Nat) : Int) < 2 ^ bits := not_le.mp hlt
            exact_mod_cast this
          have := bit_length_le (g pos % 2 ^ (bits + 1)) _ _ hlt2
          omega
        · have : g pos % 2 ^ (bits + 1) < 2 ^ (bits + 1) := Nat.mod_lt _ (by positivity)
          exact_mod_cast this
      · rw [if_neg hr1] at h2
        exact ih _ h2

/-- A number in `[2 ^ b, 2 ^ (b + 1))` has exactly `b + 1` bits. -/
theorem mpz_sizeinbase2_of_range (p : Int) (b : Nat) (h1 : (2 : Int) ^ b ≤ p)
    (h2 : p < 2 ^ (b + 1)) : mpz_sizeinbase2 p = b + 1 := by
  have hpos : 0 < p := lt_of_lt_of_le (by positivity) h1
  have hne : p ≠ 0 := ne_of_gt hpos
  obtain ⟨hlo, hhi⟩ := mpz_sizeinbase2_spec p hne
  have hcast : ((p.natAbs : Nat) : Int) = p := Int.natAbs_of_nonneg (le_of_lt hpos)
  have h1n : 2 ^ b ≤ p.natAbs := by
    have : ((2 ^ b : Nat) : Int) ≤ ((p.natAbs : Nat) : Int) := by rw [hcast]; exact_mod_cast h1
    exact_mod_cast this
  have h2n : p.natAbs < 2 ^ (b + 1) := by
    have : ((p.natAbs : Nat) : Int) < ((2 ^ (b + 1) : Nat) : Int) := by
      rw [hcast]; exact_mod_cast h2
    exact_mod_cast this
  have ha : b < mpz_sizeinbase2 p :=
    (Nat.pow_lt_pow_iff_right (by norm_num : 1 < 2)).mp (lt_of_le_of_lt h1n hhi)
  have hb : mpz_sizeinbase2 p - 1 < b + 1 :=
    (Nat.pow_lt_pow_iff_right (by norm_num : 1 < 2)).mp (lt_of_le_of_lt hlo h2n)
  omega

/-- The primes returned by the loop of `ss_make_pub` lie in the ranges fixed by `p_bits`
and `q_bits`. -/
theorem ss_make_pub_loop_range (p0 q0 : Int) (p_bits q_bits iters : Nat) (g : Nat → Nat)
    (p q : Int) (pos1 : Nat) (hp : p_bits < 2 ^ 64) (hq : q_bits < 2 ^ 64) :
    ∀ (fuel pos : Nat),
    ss_make_pub_loop fuel p0 q0 p_bits q_bits iters g pos = .ok (p, q, pos1) →
    ((2 : Int) ^ p_bits ≤ p ∧ p < 2 ^ (p_bits + 1)) ∧
    ((2 : Int) ^ q_bits ≤ q ∧ q < 2 ^ (q_bits + 1)) := by
  intro fuel
  induction fuel with
  | zero => intro pos h; simp [ss_make_pub_loop] at h
  | succ f ih =>
    intro pos h
    rw [ss_make_pub_loop] at h
    obtain ⟨pv, hpv, h1⟩ := Outcome.bind_eq_ok h
    obtain ⟨qv, hqv, h2⟩ := Outcome.bind_eq_ok h1
    by_cases hd1 : mpz_divisible_p (pv.1 - 1) q0 = true
    · rw [if_pos hd1] at h2
      exact ih _ h2
    · rw [if_neg hd1] at h2
      by_cases hd2 : mpz_divisible_p (qv.1 - 1) p0 = true
      · rw [if_pos hd2] at h2
        exact ih _ h2
      · rw [if_neg hd2] at h2
        injection h2 with h2
        injection h2 with hpe h3
        injection h3 with hqe _
        have hpr := make_prime_range p_bits iters g pv.1 pv.2 hp f pos (by rw [hpv])
        have hqr := make_prime_range q_bits iters g qv.1 qv.2 hq f pv.2 (by rw [hqv])
        rw [hpe] at hpr
        rw [hqe] at hqr
        exact ⟨hpr, hqr⟩

/-- The bit split of `ss_make_pub`: for a `uint64_t` value `nbits` and a value `rnd` of
`random()` (below `2 ^ 31`), the chosen `p_bits` lies in `[nbits / 5, 2 * nbits / 5)` and
the `uint64_t` difference `nbits - 2 * p_bits` does not wrap around. -/
theorem random_number_btw_split (nbits rnd p_bits : Nat) (hn : nbits < 2 ^ 64)
    (hr : rnd < 2 ^ 31)
    (h : random_number_btw (nbits / 5) ((2 * nbits) % 2 ^ 64 / 5) rnd = .ok p_bits) :
    nbits / 5 ≤ p_bits ∧ p_bits < 2 * nbits / 5 ∧
    (nbits + 2 ^ 64 - (p_bits * 2) % 2 ^ 64) % 2 ^ 64 = nbits - 2 * p_bits := by
  unfold random_number_btw at h
  simp only at h
  by_cases h0 : ((2 * nbits) % 2 ^ 64 / 5 + 2 ^ 64 - nbits / 5) % 2 ^ 64 = 0
  · rw [if_pos h0] at h
    exact absurd h (by simp)
  · rw [if_neg h0] at h
    injection h with h
    have hx1 : rnd % (((2 * nbits) % 2 ^ 64 / 5 + 2 ^ 64 - nbits / 5) % 2 ^ 64)
        < ((2 * nbits) % 2 ^ 64 / 5 + 2 ^ 64 - nbits / 5) % 2 ^ 64 :=
      Nat.mod_lt _ (Nat.pos_of_ne_zero h0)
    have hx2 : rnd % (((2 * nbits) % 2 ^ 64 / 5 + 2 ^ 64 - nbits / 5) % 2 ^ 64) ≤ rnd :=
      Nat.mod_le _ _
    generalize rnd % (((2 * nbits) % 2 ^ 64 / 5 + 2 ^ 64 - nbits / 5) % 2 ^ 64) = x at h hx1 hx2
    have e64 : (2 : Nat) ^ 64 = 18446744073709551616 := by norm_num
    have e31 : (2 : Nat) ^ 31 = 2147483648 := by norm_num
    rw [e64] at hn h hx1 ⊢
    rw [e31] at hr
    have hpb : p_bits = nbits / 5 + x := by omega
    have hup : p_bits < 2 * nbits / 5 := by
      by_cases hc : nbits < 9223372036854775808
      · have e1 : 2 * nbits % 18446744073709551616 = 2 * nbits := by omega
        rw [e1] at hx1
        omega
      · omega
    refine ⟨by omega, hup, ?_⟩
    have h2 : p_bits * 2 < nbits := by omega
    have h3 : p_bits * 2 % 18446744073709551616 = p_bits * 2 := by omega
    rw [h3]
    omega

/-- What a returning run of `ss_make_pub` fixes: a `p_bits` in `[nbits / 5, 2 * nbits / 5)`,
`p` in `[2 ^ p_bits, 2 ^ (p_bits + 1))`, `q` in the same range for
`q_bits = nbits - 2 * p_bits`, and `n = p * p * q`. -/
theorem ss_make_pub_bits (fuel : Nat) (p0 q0 : Int) (nbits iters rnd : Nat) (g : Nat → Nat)
    (pos : Nat) (p q n : Int) (pos1 : Nat) (hn : nbits < 2 ^ 64) (hr : rnd < 2 ^ 31)
    (h : ss_make_pub fuel p0 q0 nbits iters rnd g pos = .ok (p, q, n, pos1)) :
    ∃ p_bits, nbits / 5 ≤ p_bits ∧ p_bits < 2 * nbits / 5 ∧
      (2 : Int) ^ p_bits ≤ p ∧ p < 2 ^ (p_bits + 1) ∧
      (2 : Int) ^ (nbits - 2 * p_bits) ≤ q ∧ q < 2 ^ (nbits - 2 * p_bits + 1) ∧
      n = p * p * q := by
  unfold ss_make_pub at h
  obtain ⟨p_bits, hpb, h1⟩ := Outcome.bind_eq_ok h
  obtain ⟨r, hloop, h2⟩ := Outcome.bind_eq_ok h1
  obtain ⟨hlo, hhi, hq⟩ := random_number_btw_split nbits rnd p_bits hn hr hpb
  rw [hq] at hloop
  injection h2 with h2
  injection h2 with hp h3
  injection h3 with hqe h4
  injection h4 with hne _
  have hrange := ss_make_pub_loop_range p0 q0 p_bits (nbits - 2 * p_bits) iters g r.1 r.2.1 r.2.2
    (by omega) (by omega) fuel pos (by rw [hloop])
  rw [hp, hqe] at hrange
  rw [hp, hqe] at hne
  exact ⟨p_bits, hlo, hhi, hrange.1.1, hrange.1.2, hrange.2.1, hrange.2.2, hne.symm⟩

/-! ## Blocks -/

/-- A big-endian number of `len` bytes is below `256 ^ len`. -/
theorem mpz_import_lt (bytes : List Nat) (h : ∀ b ∈ bytes, b < 256) :
    mpz_import bytes < ((256 ^ bytes.length : Nat) : Int) := by
  rw [mpz_import_eq_ofDigits]
  have h1 : Nat.ofDigits 256 bytes.reverse < 256 ^ bytes.reverse.length :=
    Nat.ofDigits_lt_base_pow_length (by norm_num) (fun x hx => h x (List.mem_reverse.mp hx))
  rw [List.length_reverse] at h1
  exact_mod_cast h1

theorem fread_length_le (cnt : Nat) (f : InStream) : (fread cnt f).1.length ≤ cnt := by
  unfold fread
  split_ifs with h
  · simp
  · simp

theorem fread_mem (cnt : Nat) (f : InStream) (b : Nat) (hb : b ∈ (fread cnt f).1) :
    b ∈ f.data := by
  unfold fread at hb
  split_ifs at hb with h
  · simp at hb
  · exact List.mem_of_mem_take hb

/-- The block capacity `k` leaves room below the operand: `256 ^ k <= |x|` when `k >= 1`. -/
theorem block_size_pow_le (x : Int) (hk : 1 ≤ block_size x) :
    256 ^ block_size x ≤ x.natAbs := by
  have hx : x ≠ 0 := by
    rintro rfl
    simp [block_size, mpz_sizeinbase2] at hk
  obtain ⟨hlo, _⟩ := mpz_sizeinbase2_spec x hx
  have h8 : 8 * block_size x ≤ mpz_sizeinbase2 x - 1 := by
    unfold block_size
    omega
  calc 256 ^ block_size x = 2 ^ (8 * block_size x) := by
        rw [pow_mul]
        norm_num
    _ ≤ 2 ^ (mpz_sizeinbase2 x - 1) := Nat.pow_le_pow_right (by norm_num) h8
    _ ≤ x.natAbs := hlo

/-- The sentinel round trip on byte lists: exporting the import of `0xFF` followed by
bytes gives the same list back. -/
theorem export_import_sentinel (B : List Nat) (hB : ∀ b ∈ B, b < 256) :
    mpz_export (mpz_import (0xFF :: B)) = 0xFF :: B := by
  rw [mpz_export_eq_digits, mpz_import_eq_ofDigits, Int.natAbs_ofNat,
    Nat.digits_ofDigits 256 (by norm_num)]
  · simp
  · intro l hl
    rw [List.mem_reverse, List.mem_cons] at hl
    rcases hl with rfl | hl
    · norm_num
    · exact hB l hl
  · intro _
    simp

/-! ## The record loop of `ss_encrypt_file` -/

/-- Closed form of `ss_encrypt` for a positive modulus. -/
theorem ss_encrypt_ok (m n : Int) (hn : 0 < n) (fuel : Nat) (hf : n.toNat < fuel) :
    ss_encrypt fuel m n = .ok (m ^ n.toNat % n) := by
  unfold ss_encrypt
  have hcast : ((n.toNat : Nat) : Int) = n := Int.toNat_of_nonneg (le_of_lt hn)
  have h := pow_mod_nat_le m n (ne_of_gt hn) n.toNat fuel hf
  rw [hcast, if_neg (by omega)] at h
  exact h

/-- One pass of the loop of `ss_encrypt_file` while the end-of-file indicator is clear:
a record is written for whatever `fread` delivered, also when it delivered nothing. -/
theorem ss_encrypt_file_loop_step (k : Nat) (n : Int) (hn : 0 < n) (fuel : Nat)
    (hf : n.toNat < fuel) (data : List Nat) (out : List Int) :
    ss_encrypt_file_loop (fuel + 1) k n { data := data, eof := false } out
      = ss_encrypt_file_loop fuel k n (fread (k - 1) { data := data, eof := false }).2
          (out ++ [mpz_import (0xFF :: (fread (k - 1) { data := data, eof := false }).1)
            ^ n.toNat % n]) := by
  rw [ss_encrypt_file_loop]
  simp only [Bool.false_eq_true, if_false]
  rw [ss_encrypt_ok _ n hn fuel hf, Outcome.bind_ok]

theorem ss_encrypt_file_loop_eof (k : Nat) (n : Int) (fuel : Nat) (data : List Nat)
    (out : List Int) :
    ss_encrypt_file_loop (fuel + 1) k n { data := data, eof := true } out = .ok out := by
  rw [ss_encrypt_file_loop]
  simp

/-- Reading `cnt >= 1` bytes when exactly `cnt` remain delivers them all and leaves the
end-of-file indicator clear. -/
theorem fread_exact (cnt : Nat) (data : List Nat) (hc : cnt ≠ 0) (hl : data.length = cnt) :
    fread cnt { data := data, eof := false } = (data, { data := [], eof := false }) := by
  unfold fread
  rw [if_neg hc]
  simp [hl, List.take_of_length_le (le_of_eq hl), List.drop_eq_nil_of_le (le_of_eq hl)]

/-- Reading `cnt >= 1` bytes when fewer remain delivers what is left and sets the
end-of-file indicator. -/
theorem fread_short (cnt : Nat) (data : List Nat) (hl : data.length < cnt) :
    fread cnt { data := data, eof := false } = (data, { data := [], eof := true }) := by
  unfold fread
  rw [if_neg (by omega)]
  simp [hl, List.take_of_length_le (le_of_lt hl), List.drop_eq_nil_of_le (le_of_lt hl)]

/-- Reading `cnt >= 1` bytes when more remain delivers `cnt` of them, indicator clear. -/
theorem fread_long (cnt : Nat) (data : List Nat) (hc : cnt ≠ 0) (hl : cnt ≤ data.length) :
    fread cnt { data := data, eof := false }
      = (data.take cnt, { data := data.drop cnt, eof := false }) := by
  unfold fread
  rw [if_neg hc]
  simp
  omega

/-- For every modulus with block capacity `k >= 2`, a plaintext of exactly `k - 1` bytes
makes `ss_encrypt_file` write two records: the block of the plaintext and then a block
holding the sentinel alone. -/
theorem ss_encrypt_file_exact_block (n sqrt_n : Int) (input : List Nat)
    (hs : mpz_sqrt n = .ok sqrt_n) (hk : 2 ≤ block_size sqrt_n)
    (hl : input.length = block_size sqrt_n - 1) (fuel : Nat) (hf : n.toNat + 3 ≤ fuel) :
    ss_encrypt_file fuel input n
      = .ok [mpz_import (0xFF :: input) ^ n.toNat % n, mpz_import [0xFF] ^ n.toNat % n] := by
  have hn : 0 < n := by
    have hpow := block_size_pow_le sqrt_n (by omega)
    unfold mpz_sqrt at hs
    split_ifs at hs with hneg
    injection hs with hs
    by_contra h0
    have hz : n.toNat = 0 := by omega
    rw [← hs, hz] at hpow
    simp [isqrt] at hpow
  obtain ⟨f, rfl⟩ : ∃ f, fuel = f + 3 := ⟨fuel - 3, by omega⟩
  unfold ss_encrypt_file
  rw [hs, Outcome.bind_ok, if_neg (by omega),
    ss_encrypt_file_loop_step _ n hn (f + 2) (by omega),
    fread_exact _ input (by omega) hl,
    ss_encrypt_file_loop_step _ n hn (f + 1) (by omega),
    fread_short _ [] (by simp; omega),
    ss_encrypt_file_loop_eof]
  rfl

/-- For a modulus with block capacity `k = 2`, a plaintext of `k = 2` bytes makes
`ss_encrypt_file` write three records: one per byte and then the sentinel alone. -/
theorem ss_encrypt_file_two_bytes_capacity_two (n sqrt_n : Int) (a b : Nat)
    (hs : mpz_sqrt n = .ok sqrt_n) (hk : block_size sqrt_n = 2) (fuel : Nat)
    (hf : n.toNat + 4 ≤ fuel) :
    ss_encrypt_file fuel [a, b] n
      = .ok [mpz_import [0xFF, a] ^ n.toNat % n, mpz_import [0xFF, b] ^ n.toNat % n,
          mpz_import [0xFF] ^ n.toNat % n] := by
  have hn : 0 < n := by
    have hpow := block_size_pow_le sqrt_n (by omega)
    unfold mpz_sqrt at hs
    split_ifs at hs with hneg
    injection hs with hs
    by_contra h0
    have hz : n.toNat = 0 := by omega
    rw [← hs, hz] at hpow
    simp [isqrt] at hpow
  obtain ⟨f, rfl⟩ : ∃ f, fuel = f + 4 := ⟨fuel - 4, by omega⟩
  unfold ss_encrypt_file
  rw [hs, Outcome.bind_ok, if_neg (by omega), hk,
    ss_encrypt_file_loop_step _ n hn (f + 3) (by omega),
    fread_long _ [a, b] (by norm_num) (by simp),
    ss_encrypt_file_loop_step _ n hn (f + 2) (by omega),
    fread_exact _ _ (by norm_num) (by simp),
    ss_encrypt_file_loop_step _ n hn (f + 1) (by omega),
    fread_short _ [] (by simp),
    ss_encrypt_file_loop_eof]
  rfl

/-- For every modulus with block capacity `k >= 3`, a plaintext of exactly `k` bytes makes
`ss_encrypt_file` write two records: the first `k - 1` bytes, then the last byte. -/
theorem ss_encrypt_file_capacity_bytes (n sqrt_n : Int) (input : List Nat)
    (hs : mpz_sqrt n = .ok sqrt_n) (hk : 3 ≤ block_size sqrt_n)
    (hl : input.length = block_size sqrt_n) (fuel : Nat) (hf : n.toNat + 3 ≤ fuel) :
    ss_encrypt_file fuel input n
      = .ok [mpz_import (0xFF :: input.take (block_size sqrt_n - 1)) ^ n.toNat % n,
          mpz_import (0xFF :: input.drop (block_size sqrt_n - 1)) ^ n.toNat % n] := by
  have hn : 0 < n := by
    have hpow := block_size_pow_le sqrt_n (by omega)
    unfold mpz_sqrt at hs
    split_ifs at hs with hneg
    injection hs with hs
    by_contra h0
    have hz : n.toNat = 0 := by omega
    rw [← hs, hz] at hpow
    simp [isqrt] at hpow
  obtain ⟨f, rfl⟩ : ∃ f, fuel = f + 3 := ⟨fuel - 3, by omega⟩
  unfold ss_encrypt_file
  rw [hs, Outcome.bind_ok, if_neg (by omega),
    ss_encrypt_file_loop_step _ n hn (f + 2) (by omega),
    fread_long _ input (by omega) (by omega),
    ss_encrypt_file_loop_step _ n hn (f + 1) (by omega),
    fread_short _ _ (by rw [List.length_drop]; omega),
    ss_encrypt_file_loop_eof]
  rfl

/-! ## The private exponent -/

/-- The Bezout coefficient kept by the loop of `mod_inverse` stays within `[-n, n]`: the
coefficients alternate in sign and `|r * t1 - r1 * t| = n` throughout. -/
theorem mod_inverse_loop_bound (n : Int) : ∀ (fuel : Nat) (r r1 t t1 : Int) (v : Int × Int),
    0 < r → 0 ≤ r1 → -n ≤ t → t ≤ n →
    ((t ≤ 0 ∧ 0 ≤ t1 ∧ r * t1 - r1 * t = n) ∨ (0 ≤ t ∧ t1 ≤ 0 ∧ r1 * t - r * t1 = n)) →
    mod_inverse_loop fuel r r1 t t1 = .ok v → -n ≤ v.2 ∧ v.2 ≤ n := by
  intro fuel
  induction fuel with
  | zero => intro r r1 t t1 v _ _ _ _ _ h; simp [mod_inverse_loop] at h
  | succ f ih =>
    intro r r1 t t1 v hr hr1 ht1 ht2 hsign h
    rw [mod_inverse_loop] at h
    by_cases h0 : r1 = 0
    · rw [if_pos h0] at h
      injection h with h
      rw [← h]
      exact ⟨ht1, ht2⟩
    · rw [if_neg h0] at h
      have hpos : 0 < r1 := lt_of_le_of_ne hr1 (Ne.symm h0)
      rw [mpz_fdiv_q_ok _ _ hpos, Outcome.bind_ok] at h
      have hq : 0 ≤ r / r1 := Int.ediv_nonneg (le_of_lt hr) hr1
      have hrem : r - r / r1 * r1 = r % r1 := by rw [Int.emod_def]; ring
      have hrem0 : 0 ≤ r - r / r1 * r1 := by rw [hrem]; exact Int.emod_nonneg r h0
      refine ih r1 (r - r / r1 * r1) t1 (t - r / r1 * t1) v hpos hrem0 ?_ ?_ ?_ h
      · rcases hsign with ⟨_, h2, _⟩ | ⟨h1, h2, h3⟩
        · have hn0 : 0 ≤ n := by linarith
          linarith
        · have hprod : 0 ≤ r1 * t := mul_nonneg hr1 h1
          nlinarith
      · rcases hsign with ⟨h1, h2, h3⟩ | ⟨_, h2, _⟩
        · have hprod : r1 * t ≤ 0 := mul_nonpos_of_nonneg_of_nonpos hr1 h1
          nlinarith
        · have hn0 : 0 ≤ n := by linarith
          linarith
      · rcases hsign with ⟨h1, h2, h3⟩ | ⟨h1, h2, h3⟩
        · right
          refine ⟨h2, ?_, ?_⟩
          · have := mul_nonneg hq h2
            linarith
          · rw [← h3]; ring
        · left
          refine ⟨h2, ?_, ?_⟩
          · have := mul_nonpos_of_nonneg_of_nonpos hq h2
            linarith
          · rw [← h3]; ring

/-- For `a >= 0` and `n > 0` the value of `mod_inverse(a, n)` is never negative. -/
theorem mod_inverse_nonneg (a n : Int) (ha : 0 ≤ a) (hn : 0 < n) (fuel : Nat) (o : Int)
    (h : mod_inverse fuel a n = .ok o) : 0 ≤ o := by
  unfold mod_inverse at h
  obtain ⟨v, hv, h1⟩ := Outcome.bind_eq_ok h
  have hb := mod_inverse_loop_bound n fuel n a 0 1 v hn ha (by linarith) (le_of_lt hn)
    (Or.inl ⟨le_refl 0, by norm_num, by ring⟩) hv
  split_ifs at h1 with h2 h3
  · injection h1 with h1
    omega
  · injection h1 with h1
    omega
  · injection h1 with h1
    omega

/-- For `a > 0` sharing a factor with `n`, `mod_inverse` returns the sentinel `0`. -/
theorem mod_inverse_sentinel_pos (a n : Int) (ha : 0 < a) (hg : 1 < Int.gcd a n) (fuel : Nat)
    (hf : a.toNat < fuel) : mod_inverse fuel a n = .ok 0 := by
  obtain ⟨t2, hl, _⟩ := mod_inverse_loop_spec a n fuel n a 0 1 (le_of_lt ha)
    (fun h => by omega) hf (by simp [Int.ModEq]) (by simp)
  rw [Int.gcd_comm] at hl
  have hgt : (1 : Int) < ((Int.gcd a n : Nat) : Int) := by exact_mod_cast hg
  simp [mod_inverse, hl, hgt]

/-- For `p, q >= 2` the modulus computed by `ss_make_priv` is `lcm(p - 1, q - 1)`. -/
theorem ss_make_priv_lambda_ok (p q : Nat) (hp : 2 ≤ p) (hq : 2 ≤ q) (fuel : Nat)
    (hf : q ≤ fuel) :
    ss_make_priv_lambda fuel p q = .ok ((Nat.lcm (p - 1) (q - 1) : Nat) : Int) := by
  have hp1 : (0 : Int) < (p : Int) - 1 := by omega
  have hq1 : (0 : Int) < (q : Int) - 1 := by omega
  have hpc : (p : Int) - 1 = ((p - 1 : Nat) : Int) := by omega
  have hqc : (q : Int) - 1 = ((q - 1 : Nat) : Int) := by omega
  have hg : Int.gcd ((p : Int) - 1) ((q : Int) - 1) = Nat.gcd (p - 1) (q - 1) := by
    rw [hpc, hqc]
    simp [Int.gcd]
  have hgpos : 0 < Nat.gcd (p - 1) (q - 1) := Nat.gcd_pos_of_pos_left _ (by omega)
  unfold ss_make_priv_lambda
  rw [gcd_spec fuel _ _ (le_of_lt hq1) (fun _ => le_of_lt hp1) (by omega), Outcome.bind_ok,
    mpz_fdiv_q_ok _ _ (by rw [hg]; exact_mod_cast hgpos), hg, hpc, hqc]
  have hmul := Nat.gcd_mul_lcm (p - 1) (q - 1)
  have hprod : ((p - 1 : Nat) : Int) * ((q - 1 : Nat) : Int)
      = ((Nat.gcd (p - 1) (q - 1) : Nat) : Int) * ((Nat.lcm (p - 1) (q - 1) : Nat) : Int) := by
    exact_mod_cast hmul.symm
  rw [hprod, Int.mul_ediv_cancel_left _ (by exact_mod_cast (ne_of_gt hgpos))]

/-! ## Correctness of the Schmidt-Samoa exponents -/

/-- Fermat: modulo a prime `p`, raising to a power `1 + (p - 1) * t` changes nothing. -/
theorem pow_one_add_mul_pred (p : Nat) (hp : p.Prime) (m : Int) (t : Nat) :
    m ^ (1 + (p - 1) * t) ≡ m [ZMOD p] := by
  haveI := Fact.mk hp
  rw [← ZMod.intCast_eq_intCast_iff]
  push_cast
  induction t with
  | zero => simp
  | succ t ih =>
    have e : 1 + (p - 1) * (t + 1) = (p - 1) + (1 + (p - 1) * t) := by ring
    rw [e, pow_add, ih, ← pow_succ, Nat.sub_add_cancel hp.one_le, ZMod.pow_card]

/-- A prime `p` that does not divide `q - 1` does not divide `lcm(p - 1, q - 1)`. -/
theorem prime_not_dvd_lcm (p q : Nat) (hp : p.Prime) (h : ¬ p ∣ q - 1) :
    ¬ p ∣ Nat.lcm (p - 1) (q - 1) := by
  intro hd
  have h1 : p ∣ (p - 1) * (q - 1) := dvd_trans hd (Nat.lcm_dvd_mul _ _)
  rcases (Nat.Prime.dvd_mul hp).mp h1 with h2 | h2
  · have hp2 := hp.two_le
    have := Nat.le_of_dvd (by omega) h2
    omega
  · exact h h2

/-- The public modulus is coprime to `lcm(p - 1, q - 1)` when neither prime divides the
other minus one. -/
theorem modulus_coprime_lambda (p q : Nat) (hp : p.Prime) (hq : q.Prime)
    (hpq : ¬ p ∣ q - 1) (hqp : ¬ q ∣ p - 1) :
    Nat.Coprime (p ^ 2 * q) (Nat.lcm (p - 1) (q - 1)) := by
  have h1 : Nat.Coprime p (Nat.lcm (p - 1) (q - 1)) :=
    (Nat.Prime.coprime_iff_not_dvd hp).mpr (prime_not_dvd_lcm p q hp hpq)
  have h2 : Nat.Coprime q (Nat.lcm (p - 1) (q - 1)) := by
    rw [Nat.lcm_comm]
    exact (Nat.Prime.coprime_iff_not_dvd hq).mpr (prime_not_dvd_lcm q p hq hqp)
  exact Nat.Coprime.mul (Nat.Coprime.pow_left 2 h1) h2

/-- The core of the scheme: for distinct primes `p`, `q` and an exponent `e >= 1` that is
`1` modulo `lcm(p - 1, q - 1)`, raising to the power `e` is the identity modulo `p * q`. -/
theorem pow_eq_self_mod_pq (p q : Nat) (hp : p.Prime) (hq : q.Prime) (hne : p ≠ q) (e : Nat)
    (he1 : 1 ≤ e) (he : (e : Int) ≡ 1 [ZMOD ((Nat.lcm (p - 1) (q - 1) : Nat) : Int)])
    (m : Int) : m ^ e ≡ m [ZMOD ((p : Int) * q)] := by
  have hdvd : Nat.lcm (p - 1) (q - 1) ∣ e - 1 := by
    have h1 := Int.modEq_iff_dvd.mp he.symm
    have h2 : ((e : Int) - 1) = ((e - 1 : Nat) : Int) := by omega
    rw [h2] at h1
    exact Int.natCast_dvd_natCast.mp h1
  obtain ⟨t, ht⟩ := hdvd
  obtain ⟨u, hu⟩ := Nat.dvd_lcm_left (p - 1) (q - 1)
  obtain ⟨w, hw⟩ := Nat.dvd_lcm_right (p - 1) (q - 1)
  have hep : e = 1 + (p - 1) * (u * t) := by
    have : e = 1 + (e - 1) := by omega
    rw [this, ht, hu]
    ring
  have heq : e = 1 + (q - 1) * (w * t) := by
    have : e = 1 + (e - 1) := by omega
    rw [this, ht, hw]
    ring
  have hmp : m ^ e ≡ m [ZMOD p] := by
    rw [hep]
    exact pow_one_add_mul_pred p hp m _
  have hmq : m ^ e ≡ m [ZMOD q] := by
    rw [heq]
    exact pow_one_add_mul_pred q hq m _
  have hcop : IsCoprime (p : Int) (q : Int) :=
    Nat.isCoprime_iff_coprime.mpr ((Nat.coprime_primes hp hq).mpr hne)
  have hd1 : (p : Int) ∣ m - m ^ e := Int.modEq_iff_dvd.mp hmp
  have hd2 : (q : Int) ∣ m - m ^ e := Int.modEq_iff_dvd.mp hmq
  exact Int.modEq_iff_dvd.mpr (IsCoprime.mul_dvd hcop hd1 hd2)

/-! ## Key file text -/

theorem hex_val_hex_char (d : Nat) (hd : d < 16) : hex_val (hex_char d) = some d := by
  unfold hex_char hex_val
  by_cases h : d < 10
  · rw [if_pos h, if_pos (by omega)]
    congr 1
    omega
  · rw [if_neg h, if_neg (by omega), if_pos (by omega)]
    congr 1
    omega

theorem hex_char_upper (d : Nat) (hd : d < 16) :
    (48 ≤ hex_char d ∧ hex_char d ≤ 57) ∨ (65 ≤ hex_char d ∧ hex_char d ≤ 70) := by
  unfold hex_char
  split_ifs <;> omega

theorem is_hex_hex_char (d : Nat) (hd : d < 16) : is_hex (hex_char d) = true := by
  unfold is_hex
  rw [hex_val_hex_char d hd]
  rfl

theorem isspace_hex_char (d : Nat) (hd : d < 16) : isspace (hex_char d) = false := by
  have h := hex_char_upper d hd
  unfold isspace
  rw [decide_eq_false_iff_not]
  omega

theorem hex_digits_eq : ∀ (fuel m : Nat) (acc : List Nat), m ≤ fuel →
    hex_digits fuel m acc = ((Nat.digits 16 m).reverse.map hex_char) ++ acc := by
  intro fuel
  induction fuel with
  | zero =>
    intro m acc h
    have h0 : m = 0 := by omega
    subst h0
    simp [hex_digits]
  | succ f ih =>
    intro m acc h
    by_cases h0 : m = 0
    · subst h0
      simp [hex_digits]
    · rw [hex_digits, if_neg h0, ih (m / 16) _ (by omega),
        Nat.digits_def' (by norm_num) (Nat.pos_of_ne_zero h0)]
      simp

/-- The text of `%ZX` for a non-negative number: the images of a non-empty list of digits
below `16` whose value is the number. -/
theorem fmt_ZX_nonneg (n : Int) (hn : 0 ≤ n) :
    ∃ L : List Nat, L ≠ [] ∧ (∀ d ∈ L, d < 16) ∧ fmt_ZX n = L.map hex_char ∧
      Nat.ofDigits 16 L.reverse = n.natAbs := by
  unfold fmt_ZX
  rw [if_neg (by omega)]
  by_cases h0 : n = 0
  · subst h0
    refine ⟨[0], by simp, by simp, by simp [hex_char], by simp⟩
  · rw [if_neg h0, hex_digits_eq _ _ _ (le_refl _), List.append_nil, List.nil_append]
    refine ⟨(Nat.digits 16 n.natAbs).reverse, ?_, ?_, rfl, ?_⟩
    · intro h
      rw [List.reverse_eq_nil_iff] at h
      exact (Nat.digits_ne_nil_iff_ne_zero.mpr (Int.natAbs_ne_zero.mpr h0)) h
    · intro d hd
      exact Nat.digits_lt_base (by norm_num) (List.mem_reverse.mp hd)
    · rw [List.reverse_reverse, Nat.ofDigits_digits]

theorem hex_value_foldl (L : List Nat) (h : ∀ d ∈ L, d < 16) : ∀ init : Nat,
    (L.map hex_char).foldl (fun acc c => acc * 16 + (hex_val c).getD 0) init
      = L.foldl (fun acc d => acc * 16 + d) init := by
  induction L with
  | nil => intro init; rfl
  | cons d L ih =>
    intro init
    simp only [List.map_cons, List.foldl_cons]
    rw [hex_val_hex_char d (h d (List.mem_cons_self _ _)), Option.getD_some]
    exact ih (fun x hx => h x (List.mem_cons_of_mem _ hx)) _

theorem hex_value_map (L : List Nat) (h : ∀ d ∈ L, d < 16) :
    hex_value (L.map hex_char) = Nat.ofDigits 16 L.reverse := by
  unfold hex_value
  rw [hex_value_foldl L h, Nat.ofDigits_eq_foldr, List.foldr_reverse]
  congr 1
  funext acc b
  simp only [Nat.cast_id]
  ring

/-- Scanning `%ZX` on the text written for a non-negative number followed by a newline
reads the number back and stops at the newline. -/
theorem scan_ZX_fmt (n : Int) (hn : 0 ≤ n) (rest : List Nat) :
    scan_ZX (fmt_ZX n ++ 10 :: rest) = some (n, 10 :: rest) := by
  obtain ⟨L, hne, hlt, hfmt, hval⟩ := fmt_ZX_nonneg n hn
  obtain ⟨d0, L1, rfl⟩ : ∃ d0 L1, L = d0 :: L1 := by
    cases L with
    | nil => exact absurd rfl hne
    | cons d0 L1 => exact ⟨d0, L1, rfl⟩
  have hd0 : d0 < 16 := hlt d0 (List.mem_cons_self _ _)
  have hup := hex_char_upper d0 hd0
  have hall : ∀ c ∈ (d0 :: L1).map hex_char, is_hex c = true := by
    intro c hc
    obtain ⟨d, hd, rfl⟩ := List.mem_map.mp hc
    exact is_hex_hex_char d (hlt d hd)
  have h10 : ¬ is_hex 10 = true := by decide
  have hdrop : (fmt_ZX n ++ 10 :: rest).dropWhile isspace = fmt_ZX n ++ 10 :: rest := by
    rw [hfmt, List.map_cons, List.cons_append,
      List.dropWhile_cons_of_neg (by rw [isspace_hex_char d0 hd0]; simp)]
  have hhead : ¬ ((fmt_ZX n ++ 10 :: rest).head? = some 45) := by
    rw [hfmt, List.map_cons, List.cons_append, List.head?_cons]
    intro h
    injection h with h
    omega
  have htake : (fmt_ZX n ++ 10 :: rest).takeWhile is_hex = fmt_ZX n := by
    rw [hfmt, List.takeWhile_append_of_pos hall, List.takeWhile_cons_of_neg h10,
      List.append_nil]
  have hdropd : (fmt_ZX n ++ 10 :: rest).dropWhile is_hex = 10 :: rest := by
    rw [hfmt, List.dropWhile_append_of_pos hall, List.dropWhile_cons_of_neg h10]
  have hnil : ¬ fmt_ZX n = [] := by
    rw [hfmt]
    simp
  have hv : ((hex_value (fmt_ZX n) : Nat) : Int) = n := by
    rw [hfmt, hex_value_map _ hlt, hval]
    exact Int.natAbs_of_nonneg hn
  unfold scan_ZX
  simp only [hdrop, hhead, decide_False, Bool.false_eq_true, if_false, htake, hdropd, hnil,
    hv, one_mul]

/-- Scanning `%s` on a non-empty string without white space followed by a newline reads
the string back. -/
theorem scan_s_string (owner rest : List Nat) (hne : owner ≠ [])
    (hws : ∀ c ∈ owner, isspace c = false) :
    scan_s (owner ++ 10 :: rest) = some (owner, 10 :: rest) := by
  obtain ⟨c0, o1, rfl⟩ : ∃ c0 o1, owner = c0 :: o1 := by
    cases owner with
    | nil => exact absurd rfl hne
    | cons c0 o1 => exact ⟨c0, o1, rfl⟩
  have hc0 : isspace c0 = false := hws c0 (List.mem_cons_self _ _)
  have hall : ∀ c ∈ c0 :: o1, not_space c = true := by
    intro c hc
    simp [not_space, hws c hc]
  have h10 : ¬ not_space 10 = true := by decide
  have hdrop : ((c0 :: o1) ++ 10 :: rest).dropWhile isspace = (c0 :: o1) ++ 10 :: rest := by
    rw [List.cons_append, List.dropWhile_cons_of_neg (by rw [hc0]; simp)]
  have htake : ((c0 :: o1) ++ 10 :: rest).takeWhile not_space = c0 :: o1 := by
    rw [List.takeWhile_append_of_pos hall, List.takeWhile_cons_of_neg h10, List.append_nil]
  have hdropd : ((c0 :: o1) ++ 10 :: rest).dropWhile not_space = 10 :: rest := by
    rw [List.dropWhile_append_of_pos hall, List.dropWhile_cons_of_neg h10]
  unfold scan_s
  simp only [hdrop, htake, hdropd]
  simp

/-- White space skipping removes a newline and stops at a first character that is not
white space. -/
theorem dropWhile_isspace_newline (c0 : Nat) (tl : List Nat) (h : isspace c0 = false) :
    (10 :: c0 :: tl).dropWhile isspace = c0 :: tl := by
  have h10 : isspace 10 = true := by decide
  rw [List.dropWhile_cons, if_pos h10, List.dropWhile_cons_of_neg (by rw [h]; simp)]

/-- Every character written for a non-negative number by `%ZX` is an uppercase hexadecimal
digit. -/
theorem fmt_ZX_upper (n : Int) (hn : 0 ≤ n) (c : Nat) (hc : c ∈ fmt_ZX n) :
    (48 ≤ c ∧ c ≤ 57) ∨ (65 ≤ c ∧ c ≤ 70) := by
  obtain ⟨L, _, hlt, hfmt, _⟩ := fmt_ZX_nonneg n hn
  rw [hfmt] at hc
  obtain ⟨d, hd, rfl⟩ := List.mem_map.mp hc
  exact hex_char_upper d (hlt d hd)

theorem ss_read_pub_write_pub (n : Int) (hn : 0 ≤ n) (owner : List Nat) (hne : owner ≠ [])
    (hws : ∀ c ∈ owner, isspace c = false) (n0 : Int) (u0 : List Nat) :
    ss_read_pub (ss_write_pub n owner) n0 u0 = (n, owner) := by
  obtain ⟨c0, o1, rfl⟩ : ∃ c0 o1, owner = c0 :: o1 := by
    cases owner with
    | nil => exact absurd rfl hne
    | cons c0 o1 => exact ⟨c0, o1, rfl⟩
  have hc0 : isspace c0 = false := hws c0 (List.mem_cons_self _ _)
  have htext : ss_write_pub n (c0 :: o1) = fmt_ZX n ++ 10 :: ((c0 :: o1) ++ 10 :: []) := by
    simp [ss_write_pub]
  have hskip : (10 :: ((c0 :: o1) ++ 10 :: [])).dropWhile isspace = (c0 :: o1) ++ 10 :: [] := by
    rw [List.cons_append]
    exact dropWhile_isspace_newline c0 _ hc0
  unfold ss_read_pub
  rw [htext, scan_ZX_fmt n hn]
  simp only [hskip]
  rw [scan_s_string (c0 :: o1) [] hne hws]

theorem ss_read_priv_write_priv (pq d : Int) (hpq : 0 ≤ pq) (hd : 0 ≤ d) (pq0 d0 : Int) :
    ss_read_priv (ss_write_priv pq d) pq0 d0 = (pq, d) := by
  obtain ⟨L, hne, hlt, hfmt, _⟩ := fmt_ZX_nonneg d hd
  obtain ⟨x0, L1, rfl⟩ : ∃ x0 L1, L = x0 :: L1 := by
    cases L with
    | nil => exact absurd rfl hne
    | cons x0 L1 => exact ⟨x0, L1, rfl⟩
  have hx0 : isspace (hex_char x0) = false :=
    isspace_hex_char x0 (hlt x0 (List.mem_cons_self _ _))
  have htext : ss_write_priv pq d = fmt_ZX pq ++ 10 :: (fmt_ZX d ++ 10 :: []) := by
    simp [ss_write_priv]
  have hskip : (10 :: (fmt_ZX d ++ 10 :: [])).dropWhile isspace = fmt_ZX d ++ 10 :: [] := by
    rw [hfmt, List.map_cons, List.cons_append]
    exact dropWhile_isspace_newline _ _ hx0
  unfold ss_read_priv
  rw [htext, scan_ZX_fmt pq hpq]
  simp only [hskip]
  rw [scan_ZX_fmt d hd]

/-! ## Empty streams -/

/-- For every modulus with block capacity `k >= 2` the empty plaintext makes
`ss_encrypt_file` write one record, the encryption of the sentinel alone. -/
theorem ss_encrypt_file_empty (n sqrt_n : Int) (hs : mpz_sqrt n = .ok sqrt_n)
    (hk : 2 ≤ block_size sqrt_n) (fuel : Nat) (hf : n.toNat + 2 ≤ fuel) :
    ss_encrypt_file fuel [] n = .ok [mpz_import [0xFF] ^ n.toNat % n] := by
  have hn : 0 < n := by
    have hpow := block_size_pow_le sqrt_n (by omega)
    unfold mpz_sqrt at hs
    split_ifs at hs with hneg
    injection hs with hs
    by_contra h0
    have hz : n.toNat = 0 := by omega
    rw [← hs, hz] at hpow
    simp [isqrt] at hpow
  obtain ⟨f, rfl⟩ : ∃ f, fuel = f + 2 := ⟨fuel - 2, by omega⟩
  unfold ss_encrypt_file
  rw [hs, Outcome.bind_ok, if_neg (by omega),
    ss_encrypt_file_loop_step _ n hn (f + 1) (by omega),
    fread_short _ [] (by simp; omega),
    ss_encrypt_file_loop_eof]
  rfl

/-- For every private exponent `d > 0` and modulus `pq` other than `0` (with a block
capacity that fits a `uint64_t`), the empty ciphertext stream makes `ss_decrypt_file` run
its loop body once on the stale `c = 0`: the export has `j = 0` bytes and the count `j - 1`
wraps around to `2 ^ 64 - 1`, more than the block holds. -/
theorem ss_decrypt_file_empty (d pq : Int) (hd : 0 < d) (hpq : pq ≠ 0)
    (hk : block_size pq < 2 ^ 64) (fuel : Nat) (hf : d.toNat + 2 ≤ fuel) :
    ss_decrypt_file fuel [] d pq = .fault := by
  obtain ⟨f, rfl⟩ : ∃ f, fuel = f + 1 := ⟨fuel - 1, by omega⟩
  have hcast : ((d.toNat : Nat) : Int) = d := Int.toNat_of_nonneg (le_of_lt hd)
  have hne : d.toNat ≠ 0 := by omega
  have hpm := pow_mod_nat_le 0 pq hpq d.toNat f (by omega)
  rw [hcast, if_neg hne, zero_pow hne, Int.zero_emod] at hpm
  unfold ss_decrypt_file
  rw [ss_decrypt_file_loop]
  simp only [Bool.false_eq_true, if_false, List.headD_nil, ss_decrypt, hpm, Outcome.bind_ok]
  have hexp : mpz_export 0 = [] := by decide
  rw [hexp]
  simp only [List.length_nil, Nat.not_lt_zero, if_false, Nat.zero_add]
  rw [if_pos]
  have e64 : (2 : Nat) ^ 64 = 18446744073709551616 := by norm_num
  rw [e64] at hk ⊢
  omega

/-! ## The divisibility guard -/

/-- A number on which `is_prime` returns `true` is at least `2`. -/
theorem is_prime_true_ge_two (fuel : Nat) (n : Int) (iters : Nat) (g : Nat → Nat)
    (pos pos1 : Nat) (h : is_prime fuel n iters g pos = .ok (true, pos1)) : 2 ≤ n := by
  unfold is_prime at h
  by_cases h2 : n = 2
  · omega
  · rw [if_neg h2] at h
    by_cases h3 : n = 3
    · omega
    · rw [if_neg h3] at h
      by_cases h4 : n % 2 = 0 ∨ n < 2
      · rw [if_pos h4] at h
        injection h with h
        injection h with hb _
        exact absurd hb (by decide)
      · omega

/-- A value returned by `make_prime` is at least `2`, whatever `bits` is. -/
theorem make_prime_ge_two (bits iters : Nat) (g : Nat → Nat) (p : Int) (pos1 : Nat) :
    ∀ (fuel pos : Nat), make_prime fuel bits iters g pos = .ok (p, pos1) → 2 ≤ p := by
  intro fuel
  induction fuel with
  | zero => intro pos h; simp [make_prime] at h
  | succ f ih =>
    intro pos h
    rw [make_prime] at h
    simp only [mpz_urandomb] at h
    by_cases hsz : mpz_sizeinbase2 ((g pos % 2 ^ ((bits + 1) % 2 ^ 64) : Nat) : Int)
        < (bits + 1) % 2 ^ 64
    · rw [if_pos hsz] at h
      exact ih _ h
    · rw [if_neg hsz] at h
      obtain ⟨res, hres, h2⟩ := Outcome.bind_eq_ok h
      by_cases hr1 : res.1 = true
      · rw [if_pos hr1] at h2
        injection h2 with h2
        injection h2 with hp hpos
        have hres1 : res = (true, pos1) := by
          rcases res with ⟨b, k⟩
          simp only at hr1 hpos
          rw [hr1, hpos]
        rw [hres1, hp] at hres
        exact is_prime_true_ge_two _ _ _ _ _ _ hres
      · rw [if_neg hr1] at h2
        exact ih _ h2

/-- No number `>= 1` is a multiple of `0` for `mpz_divisible_p`. -/
theorem mpz_divisible_p_zero (x : Int) (hx : 1 ≤ x) : mpz_divisible_p x 0 = false := by
  unfold mpz_divisible_p
  rw [decide_eq_false_iff_not, Int.emod_zero]
  omega

/-! ## Range of the modular inverse -/

theorem mod_inverse_loop_no_div_by_zero : ∀ (fuel : Nat) (r r1 t t1 : Int),
    mod_inverse_loop fuel r r1 t t1 ≠ .div_by_zero := by
  intro fuel
  induction fuel with
  | zero => intro r r1 t t1; simp [mod_inverse_loop]
  | succ f ih =>
    intro r r1 t t1
    rw [mod_inverse_loop]
    by_cases h0 : r1 = 0
    · rw [if_pos h0]
      simp
    · rw [if_neg h0]
      simp only [mpz_fdiv_q, if_neg h0, Outcome.bind_ok]
      exact ih _ _ _ _

/-- No run of `mod_inverse` divides by zero: the divisor `r1` is tested first. -/
theorem mod_inverse_no_div_by_zero (fuel : Nat) (a n : Int) :
    mod_inverse fuel a n ≠ .div_by_zero := by
  unfold mod_inverse
  cases hl : mod_inverse_loop fuel n a 0 1 with
  | ok v =>
    rw [Outcome.bind_ok]
    split_ifs <;> simp
  | div_by_zero => exact absurd hl (mod_inverse_loop_no_div_by_zero _ _ _ _ _)
  | fault => simp [Outcome.bind]
  | out_of_fuel => simp [Outcome.bind]

/-- For `a >= 0` and `n > 1` the value of `mod_inverse(a, n)` lies in `[0, n)`. -/
theorem mod_inverse_range (a n : Int) (ha : 0 ≤ a) (hn : 1 < n) (fuel : Nat)
    (hf : a.toNat < fuel) : ∃ o, mod_inverse fuel a n = .ok o ∧ 0 ≤ o ∧ o < n := by
  by_cases h0 : a = 0
  · subst h0
    obtain ⟨f, rfl⟩ : ∃ f, fuel = f + 1 := ⟨fuel - 1, by omega⟩
    refine ⟨0, ?_, le_refl 0, by omega⟩
    simp [mod_inverse, mod_inverse_loop, hn]
  · have hapos : 0 < a := lt_of_le_of_ne ha (Ne.symm h0)
    obtain ⟨t2, hl, hc⟩ := mod_inverse_loop_spec a n fuel n a 0 1 ha (fun h => absurd h h0)
      hf (by simp [Int.ModEq]) (by simp)
    have hb := mod_inverse_loop_bound n fuel n a 0 1 _ (by omega) ha (by omega) (by omega)
      (Or.inl ⟨le_refl 0, by norm_num, by ring⟩) hl
    simp only at hb
    by_cases hg : (1 : Int) < ((Int.gcd n a : Nat) : Int)
    · refine ⟨0, ?_, le_refl 0, by omega⟩
      simp [mod_inverse, hl, hg]
    · have hgpos : 0 < Int.gcd n a := Int.gcd_pos_of_ne_zero_left a (by omega)
      have hg1 : Int.gcd n a = 1 := by
        have : ¬ 1 < Int.gcd n a := by
          intro h
          exact hg (by exact_mod_cast h)
        omega
      rw [hg1] at hl hc
      have hne : t2 ≠ n := by
        intro he
        rw [he] at hc
        have h1 : ((1 : Nat) : Int) ≡ 0 [ZMOD n] :=
          hc.trans ((Int.modEq_zero_iff_dvd).mpr (Dvd.intro _ rfl))
        have h2 : n ∣ 1 := by
          have := (Int.modEq_zero_iff_dvd).mp h1
          simpa using this
        have := Int.le_of_dvd (by norm_num) h2
        omega
      by_cases ht : t2 < 0
      · refine ⟨t2 + n, ?_, by omega, by omega⟩
        simp [mod_inverse, hl, ht]
      · refine ⟨t2, ?_, by omega, by omega⟩
        simp [mod_inverse, hl, ht]

/-! ## Block capacities of the two moduli -/

/-- The bit length is monotone on positive numbers. -/
theorem mpz_sizeinbase2_mono (x y : Int) (hx : 0 < x) (hxy : x ≤ y) :
    mpz_sizeinbase2 x ≤ mpz_sizeinbase2 y := by
  obtain ⟨hlo, _⟩ := mpz_sizeinbase2_spec x (ne_of_gt hx)
  obtain ⟨_, hhi⟩ := mpz_sizeinbase2_spec y (by omega)
  have hle : x.natAbs ≤ y.natAbs := by omega
  have hlt : mpz_sizeinbase2 x - 1 < mpz_sizeinbase2 y :=
    (Nat.pow_lt_pow_iff_right (by norm_num : 1 < 2)).mp
      (lt_of_le_of_lt hlo (lt_of_le_of_lt hle hhi))
  omega

theorem block_size_mono (x y : Int) (hx : 0 < x) (hxy : x ≤ y) :
    block_size x ≤ block_size y := by
  have := mpz_sizeinbase2_mono x y hx hxy
  unfold block_size
  omega

/-- The truncated square root of `p^2 * q` is at most `p * q` (for `q >= 1`) and at least
`1` (for `p, q >= 1`). -/
theorem isqrt_sq_mul (p q : Nat) (hp : 1 ≤ p) (hq : 1 ≤ q) :
    1 ≤ isqrt (p ^ 2 * q) ∧ isqrt (p ^ 2 * q) ≤ p * q := by
  rw [isqrt_eq_sqrt]
  constructor
  · have h1 : 1 ≤ p ^ 2 * q := Nat.one_le_iff_ne_zero.mpr (by positivity)
    have := Nat.sqrt_le_sqrt h1
    simpa using this
  · have h1 : p ^ 2 * q ≤ (p * q) ^ 2 := by
      have : p ^ 2 * q ≤ p ^ 2 * (q * q) :=
        Nat.mul_le_mul_left _ (Nat.le_mul_of_pos_left q hq)
      calc p ^ 2 * q ≤ p ^ 2 * (q * q) := this
        _ = (p * q) ^ 2 := by ring
    have := Nat.sqrt_le_sqrt h1
    rwa [Nat.sqrt_eq'] at this

/-! ## Claims on the number theory layer -/

/-- Claim C2, as stated, fails for a negative `a`: `mod_inverse(-2, 3)` returns `2` although
`gcd(-2, 3) = 1` and `3 > 1`, and `(-2 * 2) mod 3 = 2`. -/
theorem mod_inverse_negative_not_inverse :
    Int.gcd (-2) 3 = 1 ∧ mod_inverse 8 (-2) 3 = .ok 2 ∧ ((-2 : Int) * 2) % 3 = 2 ∧
    ¬ ∃ N, ∀ fuel, N ≤ fuel → ∃ o, mod_inverse fuel (-2) 3 = .ok o ∧ ((-2 : Int) * o) % 3 = 1 := by
  refine ⟨by decide, by decide, by decide, ?_⟩
  rintro ⟨N, h⟩
  obtain ⟨o, ho, hm⟩ := h (8 + N) (by omega)
  rw [mod_inverse_mono 8 (-2) 3 2 (by decide) N] at ho
  injection ho with ho
  subst ho
  revert hm
  decide

/-- Claim C2, amended: for all integers `a >= 0` and `n > 1` with `gcd(a, n) = 1`,
`mod_inverse(a, n)` terminates and its value `o` satisfies `(a * o) mod n = 1`. -/
theorem mod_inverse_correct (a n : Int) (ha : 0 ≤ a) (hn : 1 < n) (hg : Int.gcd a n = 1) :
    ∃ N, ∀ fuel, N ≤ fuel → ∃ o, mod_inverse fuel a n = .ok o ∧ (a * o) % n = 1 := by
  refine ⟨a.toNat + 1, fun fuel hf => ?_⟩
  obtain ⟨t2, hl, hc⟩ := mod_inverse_loop_spec a n fuel n a 0 1 ha (fun _ => by omega)
    (by omega) (by simp [Int.ModEq]) (by simp)
  rw [Int.gcd_comm, hg] at hl hc
  have hone : (1 : Int) % n = 1 := Int.emod_eq_of_lt (by norm_num) hn
  have hc1 : (t2 * a) % n = 1 := by
    have := hc.symm
    unfold Int.ModEq at this
    rw [this]
    simpa using hone
  by_cases ht : t2 < 0
  · refine ⟨t2 + n, ?_, ?_⟩
    · simp [mod_inverse, hl, ht]
    · have e : a * (t2 + n) = t2 * a + a * n := by ring
      rw [e, Int.add_mul_emod_self]
      exact hc1
  · refine ⟨t2, ?_, ?_⟩
    · simp [mod_inverse, hl, ht]
    · rw [mul_comm]
      exact hc1

/-- Witness for `mod_inverse_correct`: `a = 3`, `n = 7`. -/
theorem mod_inverse_correct_witness :
    (0 : Int) ≤ 3 ∧ (1 : Int) < 7 ∧ Int.gcd 3 7 = 1 ∧
    ∃ N, ∀ fuel, N ≤ fuel → ∃ o, mod_inverse fuel 3 7 = .ok o ∧ (3 * o) % 7 = 1 :=
  ⟨by decide, by decide, by decide, mod_inverse_correct 3 7 (by decide) (by decide) (by decide)⟩

/-- Claim C3, as stated, fails for a negative `a`: `gcd(-2, 4) = 2 > 1`, yet
`mod_inverse(-2, 4)` returns `1` and not the sentinel `0`. -/
theorem mod_inverse_negative_no_sentinel :
    1 < Int.gcd (-2) 4 ∧ mod_inverse 8 (-2) 4 = .ok 1 ∧
    ¬ ∃ N, ∀ fuel, N ≤ fuel → mod_inverse fuel (-2) 4 = .ok 0 := by
  refine ⟨by decide, by decide, ?_⟩
  rintro ⟨N, h⟩
  have h1 := h (8 + N) (by omega)
  rw [mod_inverse_mono 8 (-2) 4 1 (by decide) N] at h1
  injection h1 with h1
  exact absurd h1 (by decide)

/-- Claim C3, amended: for all integers `a >= 0` and `n` with `gcd(a, n) > 1`,
`mod_inverse(a, n)` terminates and returns the sentinel `0`. -/
theorem mod_inverse_sentinel (a n : Int) (ha : 0 ≤ a) (hg : 1 < Int.gcd a n) :
    ∃ N, ∀ fuel, N ≤ fuel → mod_inverse fuel a n = .ok 0 := by
  refine ⟨a.toNat + 1, fun fuel hf => ?_⟩
  obtain ⟨k, rfl⟩ : ∃ k, fuel = k + 1 := ⟨fuel - 1, by omega⟩
  by_cases h0 : a = 0
  · subst h0
    simp only [mod_inverse, mod_inverse_loop, if_true, Outcome.bind_ok]
    split_ifs <;> first | rfl | omega
  · obtain ⟨t2, hl, _⟩ := mod_inverse_loop_spec a n (k + 1) n a 0 1 ha (fun h => absurd h h0)
      (by omega) (by simp [Int.ModEq]) (by simp)
    rw [Int.gcd_comm] at hl
    have hgt : (1 : Int) < ((Int.gcd a n : Nat) : Int) := by exact_mod_cast hg
    simp [mod_inverse, hl, hgt]

/-- Witness for `mod_inverse_sentinel`: `a = 4`, `n = 6`. -/
theorem mod_inverse_sentinel_witness :
    (0 : Int) ≤ 4 ∧ 1 < Int.gcd 4 6 ∧ ∃ N, ∀ fuel, N ≤ fuel → mod_inverse fuel 4 6 = .ok 0 :=
  ⟨by decide, by decide, mod_inverse_sentinel 4 6 (by decide) (by decide)⟩

/-- Claim C4, as stated, fails for exponent `0` and modulus `1`: `pow_mod(5, 0, 1)` returns
`1`, which is neither `5 ^ 0 mod 1 = 0` nor below the modulus. -/
theorem pow_mod_zero_exponent_modulus_one :
    pow_mod 8 5 0 1 = .ok 1 ∧ (5 : Int) ^ (0 : Int).toNat % 1 = 0 ∧
    ¬ ∃ N, ∀ fuel, N ≤ fuel → pow_mod fuel 5 0 1 = .ok ((5 : Int) ^ (0 : Int).toNat % 1) := by
  refine ⟨by decide, by decide, ?_⟩
  rintro ⟨N, h⟩
  have h1 := h (N + 1) (by omega)
  simp [pow_mod, pow_mod_loop] at h1

/-- Claim C4, amended: for all integers `a`, `d >= 0` and `n > 0` with `d > 0` or `n > 1`,
`pow_mod(a, d, n)` terminates with the value `(a ^ d) mod n`, so `0 <= result < n`. -/
theorem pow_mod_correct (a d n : Int) (hd : 0 ≤ d) (hn : 0 < n) (h : 0 < d ∨ 1 < n) :
    ∃ N, ∀ fuel, N ≤ fuel → pow_mod fuel a d n = .ok (a ^ d.toNat % n) ∧
      0 ≤ a ^ d.toNat % n ∧ a ^ d.toNat % n < n := by
  have hn0 : n ≠ 0 := ne_of_gt hn
  refine ⟨d.toNat + 1, fun fuel hf => ⟨?_, Int.emod_nonneg _ hn0, Int.emod_lt_of_pos _ hn⟩⟩
  have hcast : ((d.toNat : Nat) : Int) = d := Int.toNat_of_nonneg hd
  have hp := pow_mod_nat_le a n hn0 d.toNat fuel (by omega)
  rw [hcast] at hp
  rw [hp]
  by_cases hz : d.toNat = 0
  · have h1 : 1 < n := by
      rcases h with h | h
      · omega
      · exact h
    rw [if_pos hz, hz, pow_zero, Int.emod_eq_of_lt (by norm_num) h1]
  · rw [if_neg hz]

/-- Witness for `pow_mod_correct`: `a = 3`, `d = 4`, `n = 7`. -/
theorem pow_mod_correct_witness :
    (0 : Int) ≤ 4 ∧ (0 : Int) < 7 ∧ ((0 : Int) < 4 ∨ (1 : Int) < 7) ∧
    ∃ N, ∀ fuel, N ≤ fuel → pow_mod fuel 3 4 7 = .ok (3 ^ (4 : Int).toNat % 7) ∧
      0 ≤ (3 : Int) ^ (4 : Int).toNat % 7 ∧ (3 : Int) ^ (4 : Int).toNat % 7 < 7 :=
  ⟨by decide, by decide, Or.inl (by decide),
    pow_mod_correct 3 4 7 (by decide) (by decide) (Or.inl (by decide))⟩

/-- Claim C5: for all non-negative integers `a` and `b`, `gcd(a, b)` terminates and
returns the mathematical greatest common divisor (which is `a` when `b = 0`), a
non-negative value, and no run of the loop takes a remainder by zero. -/
theorem gcd_correct (a b : Int) (ha : 0 ≤ a) (hb : 0 ≤ b) :
    (∀ fuel, gcd fuel a b ≠ .div_by_zero) ∧
    (∃ N, ∀ fuel, N ≤ fuel → gcd fuel a b = .ok ((Int.gcd a b : Nat) : Int)) ∧
    (0 : Int) ≤ ((Int.gcd a b : Nat) : Int) ∧
    (b = 0 → ((Int.gcd a b : Nat) : Int) = a) := by
  refine ⟨fun fuel => gcd_no_div_by_zero fuel a b, ⟨b.toNat + 1, fun fuel hf => ?_⟩,
    Int.natCast_nonneg _, ?_⟩
  · exact gcd_spec fuel a b hb (fun _ => ha) (by omega)
  · intro h0
    subst h0
    simp [abs_of_nonneg ha]

/-- Witness for `gcd_correct`: `a = 12`, `b = 18`. -/
theorem gcd_correct_witness :
    (0 : Int) ≤ 12 ∧ (0 : Int) ≤ 18 ∧
    ((∀ fuel, gcd fuel 12 18 ≠ .div_by_zero) ∧
    (∃ N, ∀ fuel, N ≤ fuel → gcd fuel 12 18 = .ok ((Int.gcd 12 18 : Nat) : Int)) ∧
    (0 : Int) ≤ ((Int.gcd 12 18 : Nat) : Int) ∧
    ((18 : Int) = 0 → ((Int.gcd 12 18 : Nat) : Int) = 12)) :=
  ⟨by decide, by decide, gcd_correct 12 18 (by decide) (by decide)⟩

/-- Claim C8: whenever `make_prime(bits, iters)` returns a value `p` (for any random draws),
`2 ^ bits <= p < 2 ^ (bits + 1)`, so `p` has exactly `bits + 1` bits, and the call
`is_prime(p, iters)` made on it returned true. -/
theorem make_prime_bit_length (fuel bits iters : Nat) (g : Nat → Nat) (pos : Nat) (p : Int)
    (pos1 : Nat) (hb : bits < 2 ^ 64)
    (h : make_prime fuel bits iters g pos = .ok (p, pos1)) :
    (2 : Int) ^ bits ≤ p ∧ p < 2 ^ (bits + 1) ∧
    ∃ fuel0 pos0, is_prime fuel0 p iters g pos0 = .ok (true, pos1) := by
  induction fuel generalizing pos with
  | zero => simp [make_prime] at h
  | succ f ih =>
    rw [make_prime] at h
    simp only [mpz_urandomb] at h
    split_ifs at h with hsz
    · exact ih _ h
    · obtain ⟨res, hres, h2⟩ := Outcome.bind_eq_ok h
      split_ifs at h2 with hr1
      · injection h2 with h2
        injection h2 with hp hpos
        have hres1 : res = (true, pos1) := by
          rcases res with ⟨b, k⟩
          simp only at hr1 hpos
          rw [hr1, hpos]
        rw [hres1] at hres
        have hne : g pos % 2 ^ ((bits + 1) % 2 ^ 64) ≠ 0 := by
          intro h0
          rw [h0] at hres
          simp [is_prime] at hres
        have hnb : (bits + 1) % 2 ^ 64 = bits + 1 := by
          by_contra hc
          have h64 : bits + 1 = 2 ^ 64 := by omega
          rw [h64, Nat.mod_self, pow_zero] at hne
          exact hne (Nat.mod_one _)
        rw [hnb] at hres hsz hne hp
        subst hp
        refine ⟨?_, ?_, f, pos + 1, hres⟩
        · have hsz2 : bits + 1 ≤ bit_length (g pos % 2 ^ (bits + 1)) (g pos % 2 ^ (bits + 1)) := by
            have hne2 : ((g pos % 2 ^ (bits + 1) : Nat) : Int) ≠ 0 := by exact_mod_cast hne
            unfold mpz_sizeinbase2 at hsz
            rw [if_neg hne2, Int.natAbs_ofNat] at hsz
            exact not_lt.mp hsz
          by_contra hlt
          have hlt2 : g pos % 2 ^ (bits + 1) < 2 ^ bits := by
            have : ((g pos % 2 ^ (bits + 1) : Nat) : Int) < 2 ^ bits := not_le.mp hlt
            exact_mod_cast this
          have := bit_length_le (g pos % 2 ^ (bits + 1)) _ _ hlt2
          omega
        · have : g pos % 2 ^ (bits + 1) < 2 ^ (bits + 1) := Nat.mod_lt _ (by positivity)
          exact_mod_cast this
      · exact ih _ h2

/-- Witness for `make_prime_bit_length`: `bits = 3`, one round, every draw equal to `11`. -/
theorem make_prime_bit_length_witness :
    3 < 2 ^ 64 ∧ make_prime 50 3 1 (fun _ => 11) 0 = .ok (11, 2) ∧
    ((2 : Int) ^ 3 ≤ 11 ∧ (11 : Int) < 2 ^ (3 + 1) ∧
    ∃ fuel0 pos0, is_prime fuel0 11 1 (fun _ => 11) pos0 = .ok (true, 2)) :=
  ⟨by decide, by decide,
    make_prime_bit_length 50 3 1 (fun _ => 11) 0 11 2 (by decide) (by decide)⟩

/-- Claim C9: for all primes `p` and `q`, the quotient `(p-1)(q-1) / gcd(p-1, q-1)` equals
`lcm(p-1, q-1)` and is the modulus `lamda_n` that `ss_make_priv` computes, the number it
inverts is `p * pq = p^2 * q`, and `ss_make_priv(p, q)` terminates with `pq = p * q` and
`d = mod_inverse(p^2 * q, lcm(p-1, q-1))`; whenever `gcd(p^2 * q, lcm(p-1, q-1)) = 1`,
`lcm(p-1, q-1)` divides `d * (p^2 * q) - 1`. -/
theorem ss_make_priv_correct (p q : Nat) (hp : p.Prime) (hq : q.Prime) :
    ((p : Int) - 1) * ((q : Int) - 1) / ((Int.gcd ((p : Int) - 1) ((q : Int) - 1) : Nat) : Int)
      = ((Int.lcm ((p : Int) - 1) ((q : Int) - 1) : Nat) : Int) ∧
    ∃ N, ∀ fuel, N ≤ fuel → ∃ d,
      ss_make_priv_lambda fuel p q
        = .ok ((Int.lcm ((p : Int) - 1) ((q : Int) - 1) : Nat) : Int) ∧
      ss_make_priv_n p q = (p : Int) ^ 2 * q ∧
      ss_make_priv fuel p q = .ok (d, (p : Int) * q) ∧
      mod_inverse fuel ((p : Int) ^ 2 * q) ((Int.lcm ((p : Int) - 1) ((q : Int) - 1) : Nat) : Int)
        = .ok d ∧
      (Int.gcd ((p : Int) ^ 2 * q) ((Int.lcm ((p : Int) - 1) ((q : Int) - 1) : Nat) : Int) = 1 →
        ((Int.lcm ((p : Int) - 1) ((q : Int) - 1) : Nat) : Int) ∣ d * ((p : Int) ^ 2 * q) - 1) := by
  have hp2 : 2 ≤ p := hp.two_le
  have hq2 : 2 ≤ q := hq.two_le
  have hp1 : (0 : Int) < (p : Int) - 1 := by omega
  have hq1 : (0 : Int) < (q : Int) - 1 := by omega
  have hgpos : (0 : Int) < ((Int.gcd ((p : Int) - 1) ((q : Int) - 1) : Nat) : Int) := by
    have := Int.gcd_pos_of_ne_zero_left ((q : Int) - 1) (ne_of_gt hp1)
    exact_mod_cast this
  have hlam : ((p : Int) - 1) * ((q : Int) - 1) /
      ((Int.gcd ((p : Int) - 1) ((q : Int) - 1) : Nat) : Int)
      = ((Int.lcm ((p : Int) - 1) ((q : Int) - 1) : Nat) : Int) := by
    have h1 := Int.gcd_mul_lcm ((p : Int) - 1) ((q : Int) - 1)
    have h2 : ((Int.natAbs (((p : Int) - 1) * ((q : Int) - 1)) : Nat) : Int)
        = ((p : Int) - 1) * ((q : Int) - 1) :=
      Int.natAbs_of_nonneg (le_of_lt (mul_pos hp1 hq1))
    rw [← h2, ← h1]
    push_cast
    exact Int.mul_ediv_cancel_left _ (ne_of_gt hgpos)
  have hn : ss_make_priv_n p q = (p : Int) ^ 2 * q := by
    unfold ss_make_priv_n
    ring
  have hnpos : (0 : Int) < (p : Int) ^ 2 * q := by positivity
  refine ⟨hlam, ((p : Int) ^ 2 * q).toNat + q + 1, fun fuel hf => ?_⟩
  have hlambda : ss_make_priv_lambda fuel p q
      = .ok ((Int.lcm ((p : Int) - 1) ((q : Int) - 1) : Nat) : Int) := by
    unfold ss_make_priv_lambda
    rw [gcd_spec fuel _ _ (le_of_lt hq1) (fun _ => le_of_lt hp1) (by omega), Outcome.bind_ok,
      mpz_fdiv_q_ok _ _ hgpos, hlam]
  obtain ⟨d, hd⟩ := mod_inverse_total ((p : Int) ^ 2 * q)
    ((Int.lcm ((p : Int) - 1) ((q : Int) - 1) : Nat) : Int) hnpos fuel (by omega)
  refine ⟨d, hlambda, hn, ?_, hd, fun hg => ?_⟩
  · unfold ss_make_priv
    rw [hlambda, Outcome.bind_ok, hn, hd, Outcome.bind_ok]
  · obtain ⟨o, ho, hmod⟩ := mod_inverse_modEq _ _ hnpos hg fuel (by omega)
    rw [hd] at ho
    injection ho with ho
    subst ho
    have := (Int.modEq_iff_dvd.mp hmod.symm)
    rw [mul_comm] at this
    exact this

/-- Witness for `ss_make_priv_correct`: `p = 3`, `q = 11`. -/
theorem ss_make_priv_correct_witness :
    Nat.Prime 3 ∧ Nat.Prime 11 ∧
    ((((3 : Nat) : Int) - 1) * (((11 : Nat) : Int) - 1) /
        ((Int.gcd (((3 : Nat) : Int) - 1) (((11 : Nat) : Int) - 1) : Nat) : Int)
      = ((Int.lcm (((3 : Nat) : Int) - 1) (((11 : Nat) : Int) - 1) : Nat) : Int) ∧
    ∃ N, ∀ fuel, N ≤ fuel → ∃ d,
      ss_make_priv_lambda fuel ((3 : Nat) : Int) ((11 : Nat) : Int)
        = .ok ((Int.lcm (((3 : Nat) : Int) - 1) (((11 : Nat) : Int) - 1) : Nat) : Int) ∧
      ss_make_priv_n ((3 : Nat) : Int) ((11 : Nat) : Int)
        = ((3 : Nat) : Int) ^ 2 * ((11 : Nat) : Int) ∧
      ss_make_priv fuel ((3 : Nat) : Int) ((11 : Nat) : Int)
        = .ok (d, ((3 : Nat) : Int) * ((11 : Nat) : Int)) ∧
      mod_inverse fuel (((3 : Nat) : Int) ^ 2 * ((11 : Nat) : Int))
        ((Int.lcm (((3 : Nat) : Int) - 1) (((11 : Nat) : Int) - 1) : Nat) : Int) = .ok d ∧
      (Int.gcd (((3 : Nat) : Int) ^ 2 * ((11 : Nat) : Int))
          ((Int.lcm (((3 : Nat) : Int) - 1) (((11 : Nat) : Int) - 1) : Nat) : Int) = 1 →
        ((Int.lcm (((3 : Nat) : Int) - 1) (((11 : Nat) : Int) - 1) : Nat) : Int) ∣
          d * (((3 : Nat) : Int) ^ 2 * ((11 : Nat) : Int)) - 1)) :=
  ⟨by norm_num, by norm_num, ss_make_priv_correct 3 11 (by norm_num) (by norm_num)⟩

/-- Claim C10: every run of `ss_make_pub` that returns `(p, q, n)` has `n = p^2 * q`, and the
modulus `p * pq` that `ss_make_priv` recomputes from the same `p` and `q` equals that `n`. -/
theorem ss_make_pub_modulus (fuel : Nat) (p0 q0 : Int) (nbits iters rnd : Nat) (g : Nat → Nat)
    (pos : Nat) (p q n : Int) (pos1 : Nat)
    (h : ss_make_pub fuel p0 q0 nbits iters rnd g pos = .ok (p, q, n, pos1)) :
    n = p ^ 2 * q ∧ ss_make_priv_n p q = n := by
  unfold ss_make_pub at h
  obtain ⟨p_bits, _, h1⟩ := Outcome.bind_eq_ok h
  obtain ⟨r, _, h2⟩ := Outcome.bind_eq_ok h1
  injection h2 with h2
  injection h2 with hp h3
  injection h3 with hq h4
  injection h4 with hn _
  subst hp hq
  unfold ss_make_priv_n
  constructor
  · rw [← hn]; ring
  · rw [← hn]; ring

/-- Witness for `ss_make_pub_modulus`: `nbits = 5`, one round, draws `3, 11, 11, ...`. -/
theorem ss_make_pub_modulus_witness :
    ss_make_pub 50 0 0 5 1 0 (fun i => if i = 0 then 3 else 11) 0 = .ok (3, 11, 99, 3) ∧
    ((99 : Int) = 3 ^ 2 * 11 ∧ ss_make_priv_n 3 11 = 99) :=
  ⟨by decide, ss_make_pub_modulus 50 0 0 5 1 0 (fun i => if i = 0 then 3 else 11) 0 3 11 99 3
    (by decide)⟩

/-- Claim C6: `is_prime` never rejects a prime: for every prime `n`, every iteration count
and every generator sequence (each witness is the next draw reduced into `[2, n - 2]`),
`is_prime(n, iters)` terminates and returns `true`. -/
theorem is_prime_accepts_primes (n : Nat) (hp : n.Prime) (iters : Nat) (g : Nat → Nat)
    (pos : Nat) :
    ∃ N, ∀ fuel, N ≤ fuel → ∃ pos1, is_prime fuel n iters g pos = .ok (true, pos1) :=
  ⟨iters + 2 * n + 6, fun fuel hf => is_prime_of_prime n hp iters g pos fuel hf⟩

/-- Witness for `is_prime_accepts_primes`: `n = 13`, three rounds, every draw equal to `5`. -/
theorem is_prime_accepts_primes_witness :
    Nat.Prime 13 ∧
    ∃ N, ∀ fuel, N ≤ fuel → ∃ pos1, is_prime fuel (13 : Nat) 3 (fun _ => 5) 0 = .ok (true, pos1) :=
  ⟨by norm_num, is_prime_accepts_primes 13 (by norm_num) 3 (fun _ => 5) 0⟩

/-- Claim C7, as stated, fails on a strong liar: `25 < 10000` is not prime by trial
division, yet with one round and the witness `5 mod 22 + 2 = 7` in `[2, 23]`,
`is_prime(25, 1)` returns `true`. -/
theorem is_prime_strong_liar_25 :
    ¬ trial_division_prime 25 ∧ is_prime 50 25 1 (fun _ => 5) 0 = .ok (true, 1) ∧
    ¬ ∃ N, ∀ fuel, N ≤ fuel → ∃ b pos1, is_prime fuel 25 1 (fun _ => 5) 0 = .ok (b, pos1) ∧
      (b = true ↔ trial_division_prime 25) := by
  have hnp : ¬ trial_division_prime 25 := by
    rw [trial_division_prime_iff]
    norm_num
  refine ⟨hnp, by decide, ?_⟩
  rintro ⟨N, h⟩
  obtain ⟨b, pos1, hrun, hiff⟩ := h (50 + N) (by omega)
  rw [is_prime_mono 50 25 1 (fun _ => 5) 0 (true, 1) (by decide) N] at hrun
  injection hrun with hrun
  injection hrun with hb _
  exact hnp (hiff.mp hb.symm)

/-- Claim C7, amended: for every `n < 10000`, every `iters >= 1` and every generator sequence,
`is_prime(n, iters)` terminates; it returns `true` whenever `n` is prime by trial division,
and whenever it returns `true`, `n` is prime by trial division or `n` is an odd number
`>= 5` all of whose drawn witnesses are strong liars (`n - 1 = 2 ^ s * r` with `r` odd). -/
theorem is_prime_vs_trial_division (n : Nat) (_hn : n < 10000) (iters : Nat) (_hi : 1 ≤ iters)
    (g : Nat → Nat) (pos : Nat) :
    ∃ N, ∀ fuel, N ≤ fuel → ∃ b pos1, is_prime fuel n iters g pos = .ok (b, pos1) ∧
      (trial_division_prime n → b = true) ∧
      (b = true → trial_division_prime n ∨
        (5 ≤ n ∧ n % 2 = 1 ∧ ∃ r s, n - 1 = 2 ^ s * r ∧ r % 2 = 1 ∧
          ∀ i, i < iters → strong_liar n r s ((g (pos + i) % (n - 3) + 2 : Nat) : Int))) := by
  refine ⟨iters + 2 * n + 6, fun fuel hf => ?_⟩
  obtain ⟨b, pos1, hrun, hb⟩ := is_prime_verdict n iters g pos fuel hf
  refine ⟨b, pos1, hrun, fun htd => ?_, fun hbt => ?_⟩
  · obtain ⟨pos2, hrun2⟩ :=
      is_prime_of_prime n ((trial_division_prime_iff n).mp htd) iters g pos fuel hf
    rw [hrun] at hrun2
    injection hrun2 with hrun2
    injection hrun2 with hb2 _
  · rcases hb hbt with h | h | h
    · left
      rw [h, trial_division_prime_iff]
      norm_num
    · left
      rw [h, trial_division_prime_iff]
      norm_num
    · right
      exact h

/-- Witness for `is_prime_vs_trial_division`: `n = 25`, one round, every draw equal to `5`. -/
theorem is_prime_vs_trial_division_witness :
    25 < 10000 ∧ 1 ≤ 1 ∧
    ∃ N, ∀ fuel, N ≤ fuel → ∃ b pos1,
      is_prime fuel (25 : Nat) 1 (fun _ => 5) 0 = .ok (b, pos1) ∧
      (trial_division_prime 25 → b = true) ∧
      (b = true → trial_division_prime 25 ∨
        (5 ≤ 25 ∧ 25 % 2 = 1 ∧ ∃ r s, 25 - 1 = 2 ^ s * r ∧ r % 2 = 1 ∧
          ∀ i, i < 1 →
            strong_liar (25 : Nat) r s (((fun _ => 5) (0 + i) % (25 - 3) + 2 : Nat) : Int))) :=
  ⟨by decide, by decide,
    is_prime_vs_trial_division 25 (by decide) 1 (by decide) (fun _ => 5) 0⟩

/-- Claim C24: for all integers `a >= 0` and `n > 1`, `mod_inverse(a, n)` never divides by
zero, terminates, and returns a value `o` with `0 <= o < n`. -/
theorem mod_inverse_normalised (a n : Int) (ha : 0 ≤ a) (hn : 1 < n) :
    (∀ fuel, mod_inverse fuel a n ≠ .div_by_zero) ∧
    ∃ N, ∀ fuel, N ≤ fuel → ∃ o, mod_inverse fuel a n = .ok o ∧ 0 ≤ o ∧ o < n :=
  ⟨fun fuel => mod_inverse_no_div_by_zero fuel a n,
    a.toNat + 1, fun fuel hf => mod_inverse_range a n ha hn fuel (by omega)⟩

/-- Witness for `mod_inverse_normalised`: `a = 10`, `n = 7`. -/
theorem mod_inverse_normalised_witness :
    (0 : Int) ≤ 10 ∧ (1 : Int) < 7 ∧
    ((∀ fuel, mod_inverse fuel 10 7 ≠ .div_by_zero) ∧
    ∃ N, ∀ fuel, N ≤ fuel → ∃ o, mod_inverse fuel 10 7 = .ok o ∧ 0 ≤ o ∧ o < 7) :=
  ⟨by decide, by decide, mod_inverse_normalised 10 7 (by decide) (by decide)⟩

/-! ## Claims on the cryptosystem layer -/

/-- Claim C1 fails on the code. With `nbits = 35`, one Miller-Rabin round, `random() = 0`
and the generator outputs `131, 131, 2097311, 2097311, ...`, `ss_make_pub` (entered with
`p = q = 0`, as `keygen` does) returns the primes `p = 131` and `q = 2097311` although
`p` divides `q - 1`: the divisibility guard reads the output parameters. Then
`ss_make_priv` returns `d = 0` (the no-inverse sentinel), and the round trip of the one-byte
plaintext `0x41` through `ss_encrypt_file` and `ss_decrypt_file` yields no byte at all. -/
theorem file_round_trip_fails :
    ss_make_pub 100 0 0 35 1 0 (fun i => if i < 2 then 131 else 2097311) 0
      = .ok (131, 2097311, 35991954071, 4) ∧
    Nat.Prime 131 ∧ Nat.Prime 2097311 ∧ (131 : Int) ∣ 2097311 - 1 ∧
    ss_make_priv 100 131 2097311 = .ok (0, 274747741) ∧
    ss_encrypt_file 100 [0x41] 35991954071 = .ok [8265390617, 16364888505] ∧
    ss_decrypt_file 100 [8265390617, 16364888505] 0 274747741 = .ok [] := by
  refine ⟨by decide, by norm_num, by norm_num, by decide, by decide, by decide, by decide⟩

/-- Claim C11, as stated, fails: with `nbits = 10`, `random() = 1` and the generator outputs
`13, 13, 17, 17, ...`, `ss_make_pub` returns `p = 13` and `q = 17`; `p` has `4` bits, which
is not below `2 * 10 / 5 = 4`, and `q` has `5` bits, not `10 - 2 * 4 = 2`. -/
theorem ss_make_pub_bit_budget_off_by_one :
    ss_make_pub 60 0 0 10 1 1 (fun i => if i < 2 then 13 else 17) 0 = .ok (13, 17, 2873, 4) ∧
    mpz_sizeinbase2 13 = 4 ∧ mpz_sizeinbase2 17 = 5 ∧
    ¬ (mpz_sizeinbase2 13 < 2 * 10 / 5) ∧
    ¬ (mpz_sizeinbase2 17 = 10 - 2 * mpz_sizeinbase2 13) := by
  refine ⟨by decide, by decide, by decide, by decide, by decide⟩

/-- Claim C11, amended: for every `nbits` and every run of `ss_make_pub(nbits, iters)` that
returns `(p, q, n)`, `nbits / 5 + 1 <= bitlen(p) <= 2 * nbits / 5`,
`bitlen(q) = nbits + 3 - 2 * bitlen(p)`, and both bit lengths are at least `1`
(`make_prime` is called with `p_bits` in `[nbits / 5, 2 * nbits / 5)` and
`q_bits = nbits - 2 * p_bits`, and returns one bit more than it is asked for). -/
theorem ss_make_pub_bit_budget (fuel : Nat) (p0 q0 : Int) (nbits iters rnd : Nat)
    (g : Nat → Nat) (pos : Nat) (p q n : Int) (pos1 : Nat) (hn : nbits < 2 ^ 64)
    (hr : rnd < 2 ^ 31)
    (h : ss_make_pub fuel p0 q0 nbits iters rnd g pos = .ok (p, q, n, pos1)) :
    nbits / 5 + 1 ≤ mpz_sizeinbase2 p ∧ mpz_sizeinbase2 p ≤ 2 * nbits / 5 ∧
    mpz_sizeinbase2 q = nbits + 3 - 2 * mpz_sizeinbase2 p ∧
    1 ≤ mpz_sizeinbase2 p ∧ 1 ≤ mpz_sizeinbase2 q := by
  obtain ⟨p_bits, hlo, hhi, hp1, hp2, hq1, hq2, _⟩ :=
    ss_make_pub_bits fuel p0 q0 nbits iters rnd g pos p q n pos1 hn hr h
  rw [mpz_sizeinbase2_of_range p p_bits hp1 hp2,
    mpz_sizeinbase2_of_range q (nbits - 2 * p_bits) hq1 hq2]
  omega

/-- Witness for `ss_make_pub_bit_budget`: `nbits = 10`, `random() = 1`, draws
`13, 13, 17, 17, ...`. -/
theorem ss_make_pub_bit_budget_witness :
    10 < 2 ^ 64 ∧ 1 < 2 ^ 31 ∧
    ss_make_pub 60 0 0 10 1 1 (fun i => if i < 2 then 13 else 17) 0 = .ok (13, 17, 2873, 4) ∧
    (10 / 5 + 1 ≤ mpz_sizeinbase2 13 ∧ mpz_sizeinbase2 13 ≤ 2 * 10 / 5 ∧
    mpz_sizeinbase2 17 = 10 + 3 - 2 * mpz_sizeinbase2 13 ∧
    1 ≤ mpz_sizeinbase2 13 ∧ 1 ≤ mpz_sizeinbase2 17) :=
  ⟨by decide, by decide, by decide,
    ss_make_pub_bit_budget 60 0 0 10 1 1 (fun i => if i < 2 then 13 else 17) 0 13 17 2873 4
      (by decide) (by decide) (by decide)⟩

/-- Claim C12: `nbits` is a lower bound on the size of the public modulus: for every
`nbits` and every run of `ss_make_pub(nbits, iters)` that returns `(p, q, n)`, `n` is
`p^2 * q` and has at least `nbits` bits. -/
theorem ss_make_pub_modulus_size (fuel : Nat) (p0 q0 : Int) (nbits iters rnd : Nat)
    (g : Nat → Nat) (pos : Nat) (p q n : Int) (pos1 : Nat) (hn : nbits < 2 ^ 64)
    (hr : rnd < 2 ^ 31)
    (h : ss_make_pub fuel p0 q0 nbits iters rnd g pos = .ok (p, q, n, pos1)) :
    n = p ^ 2 * q ∧ nbits ≤ mpz_sizeinbase2 n := by
  obtain ⟨p_bits, hlo, hhi, hp1, hp2, hq1, hq2, hne⟩ :=
    ss_make_pub_bits fuel p0 q0 nbits iters rnd g pos p q n pos1 hn hr h
  have hpow : (2 : Int) ^ nbits ≤ n := by
    have e : nbits = p_bits + p_bits + (nbits - 2 * p_bits) := by omega
    have h2 : (0 : Int) ≤ 2 ^ p_bits := by positivity
    have h3 : (0 : Int) ≤ 2 ^ (nbits - 2 * p_bits) := by positivity
    have hp0 : (0 : Int) ≤ p := le_trans h2 hp1
    calc (2 : Int) ^ nbits
        = 2 ^ p_bits * 2 ^ p_bits * 2 ^ (nbits - 2 * p_bits) := by
          rw [← pow_add, ← pow_add, ← e]
      _ ≤ p * p * q :=
          mul_le_mul (mul_le_mul hp1 hp1 h2 hp0) hq1 h3 (mul_nonneg hp0 hp0)
      _ = n := hne.symm
  have hnpos : 0 < n := lt_of_lt_of_le (by positivity) hpow
  obtain ⟨_, hhi2⟩ := mpz_sizeinbase2_spec n (ne_of_gt hnpos)
  have hcast : ((n.natAbs : Nat) : Int) = n := Int.natAbs_of_nonneg (le_of_lt hnpos)
  have h1n : 2 ^ nbits ≤ n.natAbs := by
    have : ((2 ^ nbits : Nat) : Int) ≤ ((n.natAbs : Nat) : Int) := by
      rw [hcast]; exact_mod_cast hpow
    exact_mod_cast this
  have hlt : nbits < mpz_sizeinbase2 n :=
    (Nat.pow_lt_pow_iff_right (by norm_num : 1 < 2)).mp (lt_of_le_of_lt h1n hhi2)
  refine ⟨?_, le_of_lt hlt⟩
  rw [hne]
  ring

/-- Witness for `ss_make_pub_modulus_size`: `nbits = 10`, `random() = 1`, draws
`13, 13, 17, 17, ...`; the modulus `2873` has `12` bits. -/
theorem ss_make_pub_modulus_size_witness :
    10 < 2 ^ 64 ∧ 1 < 2 ^ 31 ∧
    ss_make_pub 60 0 0 10 1 1 (fun i => if i < 2 then 13 else 17) 0 = .ok (13, 17, 2873, 4) ∧
    ((2873 : Int) = 13 ^ 2 * 17 ∧ 10 ≤ mpz_sizeinbase2 2873) :=
  ⟨by decide, by decide, by decide,
    ss_make_pub_modulus_size 60 0 0 10 1 1 (fun i => if i < 2 then 13 else 17) 0 13 17 2873 4
      (by decide) (by decide) (by decide)⟩

/-- Claim C13 fails on the code: entered with `p = q = 0` (as `keygen` does), with
`nbits = 5`, one round, `random() = 0` and the generator outputs `3, 13, 13, ...`,
`ss_make_pub` returns `p = 3` and `q = 13` although `p` divides `q - 1 = 12`: both
divisibility tests read the output parameters, and no number `>= 1` is a multiple of `0`. -/
theorem ss_make_pub_guard_accepts_divisible_pair :
    ss_make_pub 50 0 0 5 1 0 (fun i => if i = 0 then 3 else 13) 0 = .ok (3, 13, 117, 3) ∧
    (3 : Int) ∣ 13 - 1 ∧
    mpz_divisible_p (3 - 1) 0 = false ∧ mpz_divisible_p (13 - 1) 0 = false ∧
    mpz_divisible_p (13 - 1) 3 = true := by
  refine ⟨by decide, by decide, by decide, by decide, by decide⟩

/-- Claim C14: for every modulus `n` whose block capacity
`k = (bitlen(isqrt(n)) - 1) / 8` is at least `1`, the block integer that
`ss_encrypt_file` builds from any state of the input stream (the byte `0xFF` followed by
the at most `k - 1` bytes that `fread` delivers, read big-endian) is strictly below `n`. -/
theorem block_integer_lt_modulus (n sqrt_n : Int) (f : InStream)
    (hs : mpz_sqrt n = .ok sqrt_n) (hk : 1 ≤ block_size sqrt_n)
    (hbytes : ∀ b ∈ f.data, b < 256) :
    (fread (block_size sqrt_n - 1) f).1.length ≤ block_size sqrt_n - 1 ∧
    mpz_import (0xFF :: (fread (block_size sqrt_n - 1) f).1) < n := by
  refine ⟨fread_length_le _ _, ?_⟩
  unfold mpz_sqrt at hs
  split_ifs at hs with hneg
  injection hs with hs
  have hn0 : 0 ≤ n := not_lt.mp hneg
  have hlen := fread_length_le (block_size sqrt_n - 1) f
  have himp := mpz_import_lt (0xFF :: (fread (block_size sqrt_n - 1) f).1) (by
    intro b hb
    rw [List.mem_cons] at hb
    rcases hb with rfl | hb
    · norm_num
    · exact hbytes b (fread_mem _ _ _ hb))
  have hpow := block_size_pow_le sqrt_n hk
  rw [← hs, Int.natAbs_ofNat] at hpow
  have hsq : isqrt n.toNat ≤ n.toNat := by
    rw [isqrt_eq_sqrt]
    exact Nat.sqrt_le_self _
  have hchain : 256 ^ (0xFF :: (fread (block_size sqrt_n - 1) f).1).length ≤ n.toNat := by
    have hle : (0xFF :: (fread (block_size sqrt_n - 1) f).1).length
        ≤ block_size ((isqrt n.toNat : Nat) : Int) := by
      rw [hs, List.length_cons]
      omega
    exact le_trans (le_trans (Nat.pow_le_pow_right (by norm_num) hle) hpow) hsq
  have hcast : ((n.toNat : Nat) : Int) = n := Int.toNat_of_nonneg hn0
  have hchain2 : ((256 ^ (0xFF :: (fread (block_size sqrt_n - 1) f).1).length : Nat) : Int)
      ≤ n := by
    rw [← hcast]
    exact_mod_cast hchain
  exact lt_of_lt_of_le himp hchain2

/-- Witness for `block_integer_lt_modulus`: `n = 35991954071` (capacity `2`) and the
one-byte stream `0x41`. -/
theorem block_integer_lt_modulus_witness :
    mpz_sqrt 35991954071 = .ok 189715 ∧ 1 ≤ block_size 189715 ∧
    (∀ b ∈ ({ data := [0x41], eof := false } : InStream).data, b < 256) ∧
    ((fread (block_size 189715 - 1) { data := [0x41], eof := false }).1.length
        ≤ block_size 189715 - 1 ∧
    mpz_import (0xFF :: (fread (block_size 189715 - 1) { data := [0x41], eof := false }).1)
      < 35991954071) :=
  ⟨by decide, by decide, by decide,
    block_integer_lt_modulus 35991954071 189715 { data := [0x41], eof := false }
      (by decide) (by decide) (by decide)⟩

/-- Claim C15: the sentinel byte preserves leading zero bytes: for every byte sequence `B`,
importing `0xFF` followed by `B` as a big-endian number and exporting it back gives `0xFF`
followed by `B`, so dropping the first exported byte returns exactly `B`. -/
theorem sentinel_round_trip (B : List Nat) (hB : ∀ b ∈ B, b < 256) :
    mpz_export (mpz_import (0xFF :: B)) = 0xFF :: B ∧
    (mpz_export (mpz_import (0xFF :: B))).tail = B := by
  have h := export_import_sentinel B hB
  exact ⟨h, by rw [h]; rfl⟩

/-- Witness for `sentinel_round_trip`: the bytes `0, 0, 7`, which begin with zero bytes. -/
theorem sentinel_round_trip_witness :
    (∀ b ∈ [0, 0, 7], b < 256) ∧
    (mpz_export (mpz_import (0xFF :: [0, 0, 7])) = 0xFF :: [0, 0, 7] ∧
    (mpz_export (mpz_import (0xFF :: [0, 0, 7]))).tail = [0, 0, 7]) :=
  ⟨by decide, sentinel_round_trip [0, 0, 7] (by decide)⟩

/-- Claim C16 fails on the code. The loop of `ss_encrypt_file` tests `feof`, which only
becomes true after a read that falls short: under `n = 35991954071` (block capacity
`k = 2`) the plaintext `0x41` of exactly `k - 1 = 1` byte yields two wire records, the
second being the encryption of the sentinel `0xFF` alone. -/
theorem encrypt_file_exact_block_writes_two_records :
    mpz_sqrt 35991954071 = .ok 189715 ∧ block_size 189715 = 2 ∧
    ss_encrypt_file 100 [0x41] 35991954071 = .ok [8265390617, 16364888505] ∧
    ss_encrypt 100 (mpz_import [0xFF, 0x41]) 35991954071 = .ok 8265390617 ∧
    ss_encrypt 100 (mpz_import [0xFF]) 35991954071 = .ok 16364888505 := by
  refine ⟨by decide, by decide, by decide, by decide, by decide⟩

/-- Claim C17 fails on the code for block capacity `k = 2`: under `n = 35991954071` the
plaintext `0x41 0x42` of exactly `k = 2` bytes yields three wire records (one per byte,
then the sentinel `0xFF` alone), because the read of the last byte does not fall short. -/
theorem encrypt_file_capacity_two_writes_three_records :
    mpz_sqrt 35991954071 = .ok 189715 ∧ block_size 189715 = 2 ∧
    ss_encrypt_file 100 [0x41, 0x42] 35991954071
      = .ok [8265390617, 27159247450, 16364888505] ∧
    ss_encrypt 100 (mpz_import [0xFF, 0x41]) 35991954071 = .ok 8265390617 ∧
    ss_encrypt 100 (mpz_import [0xFF, 0x42]) 35991954071 = .ok 27159247450 ∧
    ss_encrypt 100 (mpz_import [0xFF]) 35991954071 = .ok 16364888505 := by
  refine ⟨by decide, by decide, by decide, by decide, by decide, by decide⟩

/-- Claim C19, as stated, fails: for the primes `p = 3` and `q = 13`, `n = 117` has no
inverse modulo `lcm(2, 12) = 12`, and `ss_make_priv` returns normally with `pq = 39` and
the sentinel `d = 0` as the private exponent. -/
theorem ss_make_priv_hands_back_zero :
    Nat.Prime 3 ∧ Nat.Prime 13 ∧ 1 < Int.gcd (3 ^ 2 * 13) (Int.lcm (3 - 1) (13 - 1)) ∧
    mod_inverse 200 (3 ^ 2 * 13) (Int.lcm (3 - 1) (13 - 1)) = .ok 0 ∧
    ss_make_priv 200 3 13 = .ok (0, 39) := by
  refine ⟨by norm_num, by norm_num, by decide, by decide, by decide⟩

/-- Claim C19, amended: `ss_make_priv` has no failure path: for all primes `p` and `q` for
which `n = p^2 * q` has no inverse modulo `lcm(p-1, q-1)` (their gcd exceeds `1`),
`ss_make_priv(p, q)` returns normally with `pq = p * q` and `d = 0`, the sentinel of
`mod_inverse`. -/
theorem ss_make_priv_no_failure_path (p q : Nat) (hp : p.Prime) (hq : q.Prime)
    (hg : 1 < Nat.gcd (p ^ 2 * q) (Nat.lcm (p - 1) (q - 1))) :
    ∃ N, ∀ fuel, N ≤ fuel →
      mod_inverse fuel (((p ^ 2 * q : Nat) : Int)) ((Nat.lcm (p - 1) (q - 1) : Nat) : Int)
        = .ok 0 ∧
      ss_make_priv fuel p q = .ok (0, (p : Int) * q) := by
  have hp2 := hp.two_le
  have hq2 := hq.two_le
  have hnpos : 0 < p ^ 2 * q := by positivity
  refine ⟨p ^ 2 * q + q + 1, fun fuel hf => ?_⟩
  have hinv : mod_inverse fuel (((p ^ 2 * q : Nat) : Int))
      ((Nat.lcm (p - 1) (q - 1) : Nat) : Int) = .ok 0 :=
    mod_inverse_sentinel_pos _ _ (by exact_mod_cast hnpos) (by simpa [Int.gcd] using hg) fuel
      (by rw [Int.toNat_ofNat]; omega)
  have hn : ss_make_priv_n p q = ((p ^ 2 * q : Nat) : Int) := by
    unfold ss_make_priv_n
    push_cast
    ring
  refine ⟨hinv, ?_⟩
  unfold ss_make_priv
  rw [ss_make_priv_lambda_ok p q hp2 hq2 fuel (by omega), Outcome.bind_ok, hn, hinv,
    Outcome.bind_ok]

/-- Witness for `ss_make_priv_no_failure_path`: `p = 3`, `q = 13`. -/
theorem ss_make_priv_no_failure_path_witness :
    Nat.Prime 3 ∧ Nat.Prime 13 ∧ 1 < Nat.gcd (3 ^ 2 * 13) (Nat.lcm (3 - 1) (13 - 1)) ∧
    ∃ N, ∀ fuel, N ≤ fuel →
      mod_inverse fuel (((3 ^ 2 * 13 : Nat) : Int)) ((Nat.lcm (3 - 1) (13 - 1) : Nat) : Int)
        = .ok 0 ∧
      ss_make_priv fuel ((3 : Nat) : Int) ((13 : Nat) : Int)
        = .ok (0, ((3 : Nat) : Int) * ((13 : Nat) : Int)) :=
  ⟨by norm_num, by norm_num, by decide,
    ss_make_priv_no_failure_path 3 13 (by norm_num) (by norm_num) (by decide)⟩

/-- Claim C20: the single-integer round trip. For all primes `p != q` with `p` not dividing
`q - 1` and `q` not dividing `p - 1`, with `n = p^2 * q` and `(pq, d) = ss_make_priv(p, q)`,
and for every integer `m` with `0 <= m < p * q`, `ss_decrypt(ss_encrypt(m, n), d, pq) = m`. -/
theorem ss_decrypt_encrypt (p q : Nat) (hp : p.Prime) (hq : q.Prime) (hne : p ≠ q)
    (hpq : ¬ p ∣ q - 1) (hqp : ¬ q ∣ p - 1) (m : Int) (hm0 : 0 ≤ m) (hm : m < (p : Int) * q) :
    ∃ N, ∀ fuel, N ≤ fuel → ∃ d c,
      ss_make_priv fuel p q = .ok (d, (p : Int) * q) ∧
      ss_encrypt fuel m ((p : Int) ^ 2 * q) = .ok c ∧
      ss_decrypt fuel c d ((p : Int) * q) = .ok m := by
  have hp2 := hp.two_le
  have hq2 := hq.two_le
  have hnpos : 0 < p ^ 2 * q := by positivity
  have hnposZ : (0 : Int) < ((p ^ 2 * q : Nat) : Int) := by exact_mod_cast hnpos
  have hpqpos : (0 : Int) < (p : Int) * q := by positivity
  have hcop := modulus_coprime_lambda p q hp hq hpq hqp
  have hgcd : Int.gcd ((p ^ 2 * q : Nat) : Int) ((Nat.lcm (p - 1) (q - 1) : Nat) : Int) = 1 := by
    simpa [Int.gcd] using hcop
  have hlampos : 0 < Nat.lcm (p - 1) (q - 1) := Nat.lcm_pos (by omega) (by omega)
  obtain ⟨d, hd, hmod⟩ := mod_inverse_modEq _ _ hnposZ hgcd (p ^ 2 * q + 1)
    (by rw [Int.toNat_ofNat]; omega)
  have hd0 : 0 ≤ d := mod_inverse_nonneg _ _ (le_of_lt hnposZ) (by exact_mod_cast hlampos) _ _ hd
  have hdcast : ((d.toNat : Nat) : Int) = d := Int.toNat_of_nonneg hd0
  have hdne : d.toNat ≠ 0 := by
    intro hz
    have hdz : d = 0 := by omega
    rw [hdz, mul_zero] at hmod
    have h1 : ((Nat.lcm (p - 1) (q - 1) : Nat) : Int) ∣ 1 := by
      have := Int.modEq_iff_dvd.mp hmod
      simpa using this
    have h2 : Nat.lcm (p - 1) (q - 1) ∣ 1 := by exact_mod_cast h1
    have h3 : Nat.lcm (p - 1) (q - 1) = 1 := Nat.dvd_one.mp h2
    have h4 : p - 1 ∣ 1 := by
      have := Nat.dvd_lcm_left (p - 1) (q - 1)
      rwa [h3] at this
    have h5 : q - 1 ∣ 1 := by
      have := Nat.dvd_lcm_right (p - 1) (q - 1)
      rwa [h3] at this
    have h6 := Nat.dvd_one.mp h4
    have h7 := Nat.dvd_one.mp h5
    omega
  have hexp : ((p ^ 2 * q * d.toNat : Nat) : Int)
      ≡ 1 [ZMOD ((Nat.lcm (p - 1) (q - 1) : Nat) : Int)] := by
    rw [Nat.cast_mul, hdcast]
    exact hmod
  have hcore := pow_eq_self_mod_pq p q hp hq hne (p ^ 2 * q * d.toNat)
    (Nat.one_le_iff_ne_zero.mpr (Nat.mul_ne_zero (ne_of_gt hnpos) hdne)) hexp m
  have hncast : ((p ^ 2 * q : Nat) : Int) = (p : Int) ^ 2 * q := by push_cast; ring
  refine ⟨p ^ 2 * q + q + d.toNat + 2, fun fuel hf => ?_⟩
  obtain ⟨k, rfl⟩ : ∃ k, fuel = (p ^ 2 * q + 1) + k := ⟨fuel - (p ^ 2 * q + 1), by omega⟩
  have hinv := mod_inverse_mono _ _ _ _ hd k
  have hn : ss_make_priv_n p q = ((p ^ 2 * q : Nat) : Int) := by
    unfold ss_make_priv_n
    push_cast
    ring
  have henc := ss_encrypt_ok m ((p ^ 2 * q : Nat) : Int) hnposZ (p ^ 2 * q + 1 + k)
    (by rw [Int.toNat_ofNat]; omega)
  rw [Int.toNat_ofNat] at henc
  refine ⟨d, m ^ (p ^ 2 * q) % ((p ^ 2 * q : Nat) : Int), ?_, ?_, ?_⟩
  · unfold ss_make_priv
    rw [ss_make_priv_lambda_ok p q hp2 hq2 _ (by omega), Outcome.bind_ok, hn, hinv,
      Outcome.bind_ok]
  · rw [← hncast]
    exact henc
  · unfold ss_decrypt
    have hpm := pow_mod_nat_le (m ^ (p ^ 2 * q) % ((p ^ 2 * q : Nat) : Int)) ((p : Int) * q)
      (ne_of_gt hpqpos) d.toNat (p ^ 2 * q + 1 + k) (by omega)
    rw [hdcast, if_neg hdne] at hpm
    rw [hpm]
    congr 1
    have hdvd : (p : Int) * q ∣ ((p ^ 2 * q : Nat) : Int) := by
      rw [hncast]
      exact ⟨p, by ring⟩
    have h1 : m ^ (p ^ 2 * q) % ((p ^ 2 * q : Nat) : Int) ≡ m ^ (p ^ 2 * q) [ZMOD (p : Int) * q] :=
      Int.ModEq.of_dvd hdvd (Int.mod_modEq _ _)
    have h2 := h1.pow d.toNat
    rw [← pow_mul] at h2
    have h3 := h2.trans hcore
    unfold Int.ModEq at h3
    rw [h3]
    exact Int.emod_eq_of_lt hm0 hm

/-- Witness for `ss_decrypt_encrypt`: `p = 5`, `q = 7`, `m = 12`. -/
theorem ss_decrypt_encrypt_witness :
    Nat.Prime 5 ∧ Nat.Prime 7 ∧ 5 ≠ 7 ∧ ¬ 5 ∣ 7 - 1 ∧ ¬ 7 ∣ 5 - 1 ∧ (0 : Int) ≤ 12 ∧
    (12 : Int) < ((5 : Nat) : Int) * ((7 : Nat) : Int) ∧
    ∃ N, ∀ fuel, N ≤ fuel → ∃ d c,
      ss_make_priv fuel ((5 : Nat) : Int) ((7 : Nat) : Int)
        = .ok (d, ((5 : Nat) : Int) * ((7 : Nat) : Int)) ∧
      ss_encrypt fuel 12 (((5 : Nat) : Int) ^ 2 * ((7 : Nat) : Int)) = .ok c ∧
      ss_decrypt fuel c d (((5 : Nat) : Int) * ((7 : Nat) : Int)) = .ok 12 :=
  ⟨by norm_num, by norm_num, by decide, by decide, by decide, by decide, by decide,
    ss_decrypt_encrypt 5 7 (by norm_num) (by norm_num) (by decide) (by decide) (by decide) 12
      (by decide) (by decide)⟩

/-- Claim C18: key serialization round-trips. For every `n >= 0` and every non-empty owner
string without white space, `ss_read_pub` on the text written by `ss_write_pub(n, owner)`
yields `n` and `owner`; for all `pq, d >= 0`, `ss_read_priv` on the text written by
`ss_write_priv(pq, d)` yields `pq` and `d`; the text holds one value per line, each
integer as uppercase hexadecimal digits without prefix. -/
theorem key_serialization_round_trip (n : Int) (hn : 0 ≤ n) (owner : List Nat)
    (hne : owner ≠ []) (hws : ∀ c ∈ owner, isspace c = false) (pq d : Int) (hpq : 0 ≤ pq)
    (hd : 0 ≤ d) (n0 : Int) (u0 : List Nat) (pq0 d0 : Int) :
    ss_read_pub (ss_write_pub n owner) n0 u0 = (n, owner) ∧
    ss_read_priv (ss_write_priv pq d) pq0 d0 = (pq, d) ∧
    ss_write_pub n owner = fmt_ZX n ++ [10] ++ owner ++ [10] ∧
    ss_write_priv pq d = fmt_ZX pq ++ [10] ++ fmt_ZX d ++ [10] ∧
    (∀ x, x = n ∨ x = pq ∨ x = d → ∀ c ∈ fmt_ZX x, (48 ≤ c ∧ c ≤ 57) ∨ (65 ≤ c ∧ c ≤ 70)) := by
  refine ⟨ss_read_pub_write_pub n hn owner hne hws n0 u0,
    ss_read_priv_write_priv pq d hpq hd pq0 d0, rfl, rfl, ?_⟩
  intro x hx c hc
  rcases hx with rfl | rfl | rfl
  · exact fmt_ZX_upper _ hn c hc
  · exact fmt_ZX_upper _ hpq c hc
  · exact fmt_ZX_upper _ hd c hc

/-- Witness for `key_serialization_round_trip`: `n = 3054` (text `BEE`), owner `root`,
`pq = 39`, `d = 0`. -/
theorem key_serialization_round_trip_witness :
    (0 : Int) ≤ 3054 ∧ [114, 111, 111, 116] ≠ [] ∧
    (∀ c ∈ [114, 111, 111, 116], isspace c = false) ∧ (0 : Int) ≤ 39 ∧ (0 : Int) ≤ 0 ∧
    (ss_read_pub (ss_write_pub 3054 [114, 111, 111, 116]) 7 [] = (3054, [114, 111, 111, 116]) ∧
    ss_read_priv (ss_write_priv 39 0) 7 7 = (39, 0) ∧
    ss_write_pub 3054 [114, 111, 111, 116]
      = fmt_ZX 3054 ++ [10] ++ [114, 111, 111, 116] ++ [10] ∧
    ss_write_priv 39 0 = fmt_ZX 39 ++ [10] ++ fmt_ZX 0 ++ [10] ∧
    (∀ x, x = (3054 : Int) ∨ x = 39 ∨ x = 0 →
      ∀ c ∈ fmt_ZX x, (48 ≤ c ∧ c ≤ 57) ∨ (65 ≤ c ∧ c ≤ 70))) :=
  ⟨by decide, by decide, by decide, by decide, by decide,
    key_serialization_round_trip 3054 (by decide) [114, 111, 111, 116] (by decide) (by decide)
      39 0 (by decide) (by decide) 7 [] 7 7⟩

/-- Claim C21 fails on the code: for the empty plaintext under `n = 35991954071` (block
capacity `k = 2`), `ss_encrypt_file` writes one wire record, the encryption of the
sentinel `0xFF` alone, because `feof` is only true after the first read fell short. -/
theorem encrypt_file_empty_writes_one_record :
    mpz_sqrt 35991954071 = .ok 189715 ∧ block_size 189715 = 2 ∧
    ss_encrypt_file 100 [] 35991954071 = .ok [16364888505] ∧
    ss_encrypt 100 (mpz_import [0xFF]) 35991954071 = .ok 16364888505 := by
  refine ⟨by decide, by decide, by decide, by decide⟩

/-- Claim C22 fails on the code: for the empty ciphertext stream and the private key
`(d, pq) = (271, 899)` of `p = 29`, `q = 31`, the loop body of `ss_decrypt_file` runs once
with the stale `c = 0`, decrypts it to `m = 0`, exports `j = 0` bytes, and the count
`j - 1` passed to the write wraps around to `2 ^ 64 - 1`, far beyond the `k = 1` byte
block: the run leaves defined behaviour. -/
theorem decrypt_file_empty_count_wraps :
    ss_make_priv 30000 29 31 = .ok (271, 899) ∧ block_size 899 = 1 ∧
    ss_decrypt 100 0 271 899 = .ok 0 ∧ mpz_export 0 = [] ∧
    ((mpz_export 0).length + 2 ^ 64 - 1) % 2 ^ 64 = 2 ^ 64 - 1 ∧
    ss_decrypt_file 100 [] 271 899 = .fault := by
  refine ⟨by decide, by decide, by decide, by decide, by decide, by decide⟩

/-- Claim C23: with the output slots `p` and `q` holding `0` on entry, the divisibility
guard of `ss_make_pub` is a no-op: neither test succeeds on any value returned by
`make_prime`, so the loop body runs exactly once (the loop result is that of one pass
without a further pass) and the first pair returned by `make_prime` is accepted. -/
theorem ss_make_pub_guard_no_op (fuel p_bits q_bits iters : Nat) (g : Nat → Nat) (pos : Nat) :
    (∀ f pos0 bits v pos1, make_prime f bits iters g pos0 = .ok (v, pos1) →
      mpz_divisible_p (v - 1) 0 = false) ∧
    ss_make_pub_loop (fuel + 1) 0 0 p_bits q_bits iters g pos
      = (make_prime fuel p_bits iters g pos).bind (fun pv =>
          (make_prime fuel q_bits iters g pv.2).bind (fun qv =>
            .ok (pv.1, qv.1, qv.2))) := by
  have hguard : ∀ f pos0 bits v pos1, make_prime f bits iters g pos0 = .ok (v, pos1) →
      mpz_divisible_p (v - 1) 0 = false := by
    intro f pos0 bits v pos1 h
    have := make_prime_ge_two bits iters g v pos1 f pos0 h
    exact mpz_divisible_p_zero _ (by omega)
  refine ⟨hguard, ?_⟩
  rw [ss_make_pub_loop]
  cases hp : make_prime fuel p_bits iters g pos with
  | ok pv =>
    simp only [Outcome.bind_ok]
    cases hq : make_prime fuel q_bits iters g pv.2 with
    | ok qv =>
      simp only [Outcome.bind_ok]
      rw [hguard fuel pos p_bits pv.1 pv.2 hp, hguard fuel pv.2 q_bits qv.1 qv.2 hq]
      simp
    | div_by_zero => rfl
    | fault => rfl
    | out_of_fuel => rfl
  | div_by_zero => rfl
  | fault => rfl
  | out_of_fuel => rfl

/-- Witness for `ss_make_pub_guard_no_op`: one bit for `p`, three for `q`, one round and
the generator outputs `3, 13, 13, ...`: the single pass accepts the pair `(3, 13)`
although `3` divides `13 - 1`. -/
theorem ss_make_pub_guard_no_op_witness :
    ss_make_pub_loop (49 + 1) 0 0 1 3 1 (fun i => if i = 0 then 3 else 13) 0
      = .ok (3, 13, 3) ∧
    ((∀ f pos0 bits v pos1,
      make_prime f bits 1 (fun i => if i = 0 then 3 else 13) pos0 = .ok (v, pos1) →
      mpz_divisible_p (v - 1) 0 = false) ∧
    ss_make_pub_loop (49 + 1) 0 0 1 3 1 (fun i => if i = 0 then 3 else 13) 0
      = (make_prime 49 1 1 (fun i => if i = 0 then 3 else 13) 0).bind (fun pv =>
          (make_prime 49 3 1 (fun i => if i = 0 then 3 else 13) pv.2).bind (fun qv =>
            .ok (pv.1, qv.1, qv.2)))) :=
  ⟨by decide, ss_make_pub_guard_no_op 49 1 3 1 (fun i => if i = 0 then 3 else 13) 0⟩

/-- Claim C25: for all integers `p >= 1` and `q >= 1` the block capacity that
`ss_decrypt_file` derives from `pq` is at least the capacity that `ss_encrypt_file` derives
from `isqrt(p^2 * q)`, so every block integer built by `ss_encrypt_file` under
`n = p^2 * q` exports to at most the `k` bytes allocated by `ss_decrypt_file`. -/
theorem decrypt_block_not_smaller (p q : Int) (hp : 1 ≤ p) (hq : 1 ≤ q) :
    ∃ sqrt_n, mpz_sqrt (p ^ 2 * q) = .ok sqrt_n ∧
      (mpz_sizeinbase2 sqrt_n - 1) / 8 ≤ (mpz_sizeinbase2 (p * q) - 1) / 8 ∧
      block_size sqrt_n ≤ block_size (p * q) ∧
      ∀ f : InStream, (∀ b ∈ f.data, b < 256) → 1 ≤ block_size sqrt_n →
        (mpz_export (mpz_import (0xFF :: (fread (block_size sqrt_n - 1) f).1))).length
          ≤ block_size (p * q) := by
  lift p to ℕ using (by omega)
  lift q to ℕ using (by omega)
  have hp1 : 1 ≤ p := by exact_mod_cast hp
  have hq1 : 1 ≤ q := by exact_mod_cast hq
  have hcast : (p : Int) ^ 2 * (q : Int) = ((p ^ 2 * q : Nat) : Int) := by push_cast; ring
  obtain ⟨hs1, hs2⟩ := isqrt_sq_mul p q hp1 hq1
  have hsqrt : mpz_sqrt ((p : Int) ^ 2 * (q : Int)) = .ok ((isqrt (p ^ 2 * q) : Nat) : Int) := by
    unfold mpz_sqrt
    rw [hcast, if_neg (by omega), Int.toNat_ofNat]
  have hmono : block_size ((isqrt (p ^ 2 * q) : Nat) : Int) ≤ block_size ((p : Int) * q) :=
    block_size_mono _ _ (by exact_mod_cast hs1) (by exact_mod_cast hs2)
  refine ⟨_, hsqrt, hmono, hmono, fun f hbytes hk => ?_⟩
  rw [export_import_sentinel _ (fun b hb => hbytes b (fread_mem _ _ _ hb)), List.length_cons]
  have := fread_length_le (block_size ((isqrt (p ^ 2 * q) : Nat) : Int) - 1) f
  omega

/-- Witness for `decrypt_block_not_smaller`: `p = 131`, `q = 2097311`. -/
theorem decrypt_block_not_smaller_witness :
    (1 : Int) ≤ 131 ∧ (1 : Int) ≤ 2097311 ∧
    ∃ sqrt_n, mpz_sqrt (131 ^ 2 * 2097311) = .ok sqrt_n ∧
      (mpz_sizeinbase2 sqrt_n - 1) / 8 ≤ (mpz_sizeinbase2 (131 * 2097311) - 1) / 8 ∧
      block_size sqrt_n ≤ block_size (131 * 2097311) ∧
      ∀ f : InStream, (∀ b ∈ f.data, b < 256) → 1 ≤ block_size sqrt_n →
        (mpz_export (mpz_import (0xFF :: (fread (block_size sqrt_n - 1) f).1))).length
          ≤ block_size (131 * 2097311) :=
  ⟨by decide, by decide, decrypt_block_not_smaller 131 2097311 (by decide) (by decide)⟩

/-- Claim C26: for every `nbits` with `3 <= nbits < 2^63` and every value `rnd` of
`random()`, the range `(2 * nbits) / 5 - nbits / 5` passed to `random_number_btw` is
positive (no remainder by zero), the chosen `p_bits` satisfies
`nbits / 5 <= p_bits < (2 * nbits) / 5`, and `q_bits = nbits - 2 * p_bits` does not wrap
around as a `uint64_t` and is at least `1`. -/
theorem ss_make_pub_bit_split (nbits rnd : Nat) (h3 : 3 ≤ nbits) (h63 : nbits < 2 ^ 63) :
    0 < ((2 * nbits) % 2 ^ 64 / 5 + 2 ^ 64 - nbits / 5) % 2 ^ 64 ∧
    ((2 * nbits) % 2 ^ 64 / 5 + 2 ^ 64 - nbits / 5) % 2 ^ 64 = 2 * nbits / 5 - nbits / 5 ∧
    ∃ p_bits, random_number_btw (nbits / 5) ((2 * nbits) % 2 ^ 64 / 5) rnd = .ok p_bits ∧
      nbits / 5 ≤ p_bits ∧ p_bits < 2 * nbits / 5 ∧ p_bits * 2 ≤ nbits ∧
      (nbits + 2 ^ 64 - (p_bits * 2) % 2 ^ 64) % 2 ^ 64 = nbits - 2 * p_bits ∧
      1 ≤ nbits - 2 * p_bits := by
  have e64 : (2 : Nat) ^ 64 = 18446744073709551616 := by norm_num
  have e63 : (2 : Nat) ^ 63 = 9223372036854775808 := by norm_num
  rw [e63] at h63
  rw [e64]
  have e1 : 2 * nbits % 18446744073709551616 = 2 * nbits := by omega
  rw [e1]
  have hkey : nbits / 5 + 1 ≤ 2 * nbits / 5 := by
    rw [Nat.le_div_iff_mul_le (by norm_num : 0 < 5)]
    by_cases hb : nbits / 5 = 0
    · rw [hb]
      omega
    · omega
  have hpos : 0 < 2 * nbits / 5 - nbits / 5 := by omega
  have hrange : (2 * nbits / 5 + 18446744073709551616 - nbits / 5) % 18446744073709551616
      = 2 * nbits / 5 - nbits / 5 := by omega
  refine ⟨by rw [hrange]; exact hpos, hrange, ?_⟩
  have hx : rnd % (2 * nbits / 5 - nbits / 5) < 2 * nbits / 5 - nbits / 5 := Nat.mod_lt _ hpos
  refine ⟨nbits / 5 + rnd % (2 * nbits / 5 - nbits / 5), ?_, ?_⟩
  · unfold random_number_btw
    simp only [e64, e1, hrange]
    rw [if_neg (by omega)]
    congr 1
    generalize rnd % (2 * nbits / 5 - nbits / 5) = x at hx
    omega
  · generalize rnd % (2 * nbits / 5 - nbits / 5) = x at hx
    refine ⟨by omega, by omega, by omega, ?_, by omega⟩
    have h2 : (nbits / 5 + x) * 2 % 18446744073709551616 = (nbits / 5 + x) * 2 := by omega
    rw [h2]
    omega

/-- Witness for `ss_make_pub_bit_split`: `nbits = 3`, the smallest width, `random() = 77`. -/
theorem ss_make_pub_bit_split_witness :
    3 ≤ 3 ∧ 3 < 2 ^ 63 ∧
    (0 < ((2 * 3) % 2 ^ 64 / 5 + 2 ^ 64 - 3 / 5) % 2 ^ 64 ∧
    ((2 * 3) % 2 ^ 64 / 5 + 2 ^ 64 - 3 / 5) % 2 ^ 64 = 2 * 3 / 5 - 3 / 5 ∧
    ∃ p_bits, random_number_btw (3 / 5) ((2 * 3) % 2 ^ 64 / 5) 77 = .ok p_bits ∧
      3 / 5 ≤ p_bits ∧ p_bits < 2 * 3 / 5 ∧ p_bits * 2 ≤ 3 ∧
      (3 + 2 ^ 64 - (p_bits * 2) % 2 ^ 64) % 2 ^ 64 = 3 - 2 * p_bits ∧
      1 ≤ 3 - 2 * p_bits) :=
  ⟨by decide, by decide, ss_make_pub_bit_split 3 77 (by decide) (by decide)⟩

end SS
